import Mathlib

/-!
Verification of the OpenBlock registry toolchain engine: a shallow
embedding of the platform classifier (platform-mapper.js), the package
index parsing and resolution (index-parser.js), the packager decision
logic (packager.js), the state reconciler (calculate-diff.js) and the
effect ordering of the sync driver (sync.js), together with theorems
about merging, classification, resolution, diffing and checksum
verification.
-/

set_option maxHeartbeats 1000000

namespace OpenBlockRegistry

/-- Tool dependency declared by a platform entry of a package index
(an element of the `toolsDependencies` array). -/
structure ToolDependency where
  packager : String
  name : String
  version : String
deriving DecidableEq, Repr

/-- Host-specific binary descriptor of a tool (an element of the
`systems` array). -/
structure SystemEntry where
  host : String
  url : String
  checksum : String
  size : String
  archiveFileName : String
deriving DecidableEq, Repr

/-- Versioned tool of a packager (an element of the `tools` array). -/
structure Tool where
  name : String
  version : String
  systems : List SystemEntry
deriving DecidableEq, Repr

/-- One architecture+version core descriptor (an element of the
`platforms` array). -/
structure PlatformEntry where
  architecture : String
  version : String
  url : String
  checksum : String
  size : String
  archiveFileName : String
  toolsDependencies : List ToolDependency
deriving DecidableEq, Repr

/-- One upstream package record (a packager). -/
structure PackageEntry where
  name : String
  platforms : List PlatformEntry
  tools : List Tool
deriving DecidableEq, Repr

/-- An Arduino package index document. -/
structure PackageIndex where
  packages : List PackageEntry
deriving DecidableEq, Repr

/-! platform-mapper.js -/

/-- Matcher rule of `PLATFORM_MATCHERS`: a platform name with arch
keywords, OS keywords and optional exclude keywords (an absent
`excludeKeywords` field is modelled as the empty list). -/
structure PlatformMatcher where
  platform : String
  archKeywords : List String
  excludeKeywords : List String := []
  osKeywords : List String
deriving DecidableEq, Repr

/-- The ordered matcher table `PLATFORM_MATCHERS` of platform-mapper.js. -/
def PLATFORM_MATCHERS : List PlatformMatcher := [
  { platform := "win32-x64", archKeywords := ["x86_64", "x64", "amd64"],
    osKeywords := ["mingw", "windows", "win32", "win64"] },
  { platform := "win32-ia32", archKeywords := ["i686", "i386", "x86", "ia32"],
    excludeKeywords := ["x86_64"], osKeywords := ["mingw", "windows", "win32"] },
  { platform := "darwin-arm64", archKeywords := ["arm64", "aarch64"],
    osKeywords := ["darwin", "apple", "macos", "osx"] },
  { platform := "darwin-x64", archKeywords := ["x86_64", "x64", "amd64", "i386"],
    osKeywords := ["darwin", "apple", "macos", "osx"] },
  { platform := "linux-arm64", archKeywords := ["arm64", "aarch64"],
    osKeywords := ["linux"] },
  { platform := "linux-arm", archKeywords := ["arm", "armv6", "armv7", "armhf", "gnueabihf"],
    excludeKeywords := ["arm64", "aarch64"], osKeywords := ["linux"] },
  { platform := "linux-x64", archKeywords := ["x86_64", "x64", "amd64"],
    osKeywords := ["linux"] }
]

/-- The closed list `OPENBLOCK_PLATFORMS` of platform-mapper.js. -/
def OPENBLOCK_PLATFORMS : List String :=
  ["win32-x64", "darwin-x64", "darwin-arm64", "linux-x64", "linux-arm64", "linux-arm"]

/-- The fallback table `PLATFORM_FALLBACKS` of platform-mapper.js. -/
def PLATFORM_FALLBACKS : List (String × String) :=
  [("darwin-arm64", "darwin-x64"), ("win32-x64", "win32-ia32")]

/-- getFallbackPlatform of platform-mapper.js:
`PLATFORM_FALLBACKS[platform] ?? null`. -/
def getFallbackPlatform (platform : String) : Option String :=
  (PLATFORM_FALLBACKS.find? (fun kv => kv.1 == platform)).map (·.2)

/-- strToLower lower-cases every character: JavaScript `toLowerCase()`
(all strings involved are ASCII). -/
def strToLower (s : String) : String := ⟨s.data.map Char.toLower⟩

/-- strToUpper upper-cases every character: JavaScript `toUpperCase()`
(all strings involved are ASCII). -/
def strToUpper (s : String) : String := ⟨s.data.map Char.toUpper⟩

/-- splitOnChar splits a character list at every occurrence of the
separator: JavaScript `split(sep)` for a one-character separator. -/
def splitOnChar (sep : Char) : List Char → List (List Char)
  | [] => [[]]
  | c :: rest =>
    let r := splitOnChar sep rest
    if c == sep then [] :: r
    else
      match r with
      | [] => [[c]]
      | seg :: segs => (c :: seg) :: segs

/-- strSplitOnChar lifts splitOnChar to strings. -/
def strSplitOnChar (sep : Char) (s : String) : List String :=
  (splitOnChar sep s.data).map (fun cs => ⟨cs⟩)

/-- listStartsWith hay needle: needle is a leading segment of hay. -/
def listStartsWith : List Char → List Char → Bool
  | _, [] => true
  | [], _ :: _ => false
  | a :: as, b :: bs => a == b && listStartsWith as bs

/-- hasSub hay needle: needle occurs contiguously inside hay; this is
JavaScript `String.prototype.includes` on character lists. -/
def hasSub : List Char → List Char → Bool
  | [], needle => needle.isEmpty
  | c :: t, needle => listStartsWith (c :: t) needle || hasSub t needle

/-- strIncludes s kw mirrors the JavaScript expression `s.includes(kw)`. -/
def strIncludes (s kw : String) : Bool := hasSub s.data kw.data

/-- matcherMatches hostLower m is the rule test of toOpenBlockPlatform:
`hasArch && hasOs && !hasExclude` on the lower-cased host string. -/
def matcherMatches (hostLower : String) (m : PlatformMatcher) : Bool :=
  m.archKeywords.any (fun kw => strIncludes hostLower (strToLower kw)) &&
  m.osKeywords.any (fun kw => strIncludes hostLower (strToLower kw)) &&
  !(m.excludeKeywords.any (fun kw => strIncludes hostLower (strToLower kw)))

/-- toOpenBlockPlatform of platform-mapper.js: a falsy host gives null,
otherwise the platform of the first matcher whose test passes on the
lower-cased host, null when no matcher passes. -/
def toOpenBlockPlatform (arduinoHost : String) : Option String :=
  if arduinoHost = "" then none
  else (PLATFORM_MATCHERS.find? (matcherMatches (strToLower arduinoHost))).map (·.platform)

/-! index-parser.js -/

/-- findPlatform of index-parser.js: packager looked up by
case-insensitive name, then the platform entry with the matching
case-insensitive architecture and exact version. -/
def findPlatform (idx : PackageIndex) (packager architecture version : String) :
    Option PlatformEntry :=
  match idx.packages.find? (fun p => strToLower p.name == strToLower packager) with
  | none => none
  | some pkg =>
    pkg.platforms.find? (fun p =>
      strToLower p.architecture == strToLower architecture && p.version == version)

/-- digitsVal folds decimal digits into a natural number. -/
def digitsVal (ds : List Char) : Nat :=
  ds.foldl (fun a c => a * 10 + (c.toNat - 48)) 0

/-- jsParseIntOr0 models `parseInt(s, 10) || 0`: leading whitespace is
skipped, an optional sign, then the maximal run of decimal digits; an
empty digit run (NaN) gives 0. -/
def jsParseIntOr0 (s : String) : Int :=
  let cs := s.data.dropWhile (fun c => c == ' ' || c == '\t' || c == '\n' || c == '\r')
  match cs with
  | '-' :: rest =>
    let ds := rest.takeWhile Char.isDigit
    if ds.isEmpty then 0 else -(digitsVal ds : Int)
  | '+' :: rest =>
    let ds := rest.takeWhile Char.isDigit
    if ds.isEmpty then 0 else (digitsVal ds : Int)
  | _ =>
    let ds := cs.takeWhile Char.isDigit
    if ds.isEmpty then 0 else (digitsVal ds : Int)

/-- cmpZeroRest compares an exhausted left component list (padded with
0) against the remaining right components. -/
def cmpZeroRest : List Int → Int
  | [] => 0
  | b :: bs => if 0 < b then -1 else if b < 0 then 1 else cmpZeroRest bs

/-- cmpParts is the comparison loop of compareVersions on integer
component lists: component-wise, a missing component counts as 0. -/
def cmpParts : List Int → List Int → Int
  | [], bs => cmpZeroRest bs
  | a :: as, [] => if a < 0 then -1 else if 0 < a then 1 else cmpParts as []
  | a :: as, b :: bs => if a < b then -1 else if b < a then 1 else cmpParts as bs

/-- compareVersions of index-parser.js: split on `.`, parse each
component with `parseInt(_, 10) || 0`, compare component-wise with
missing components treated as 0. -/
def compareVersions (a b : String) : Int :=
  cmpParts ((strSplitOnChar '.' a).map jsParseIntOr0) ((strSplitOnChar '.' b).map jsParseIntOr0)

/-- insertVersionDesc places a version into a descending-sorted list,
after every entry that compares greater than or equal to it. -/
def insertVersionDesc (x : String) : List String → List String
  | [] => [x]
  | y :: ys => if compareVersions x y ≤ 0 then y :: insertVersionDesc x ys else x :: y :: ys

/-- sortVersionsDesc sorts version strings descending: the behaviour of
the stable JavaScript `sort((a, b) => compareVersions(b, a))`. -/
def sortVersionsDesc (l : List String) : List String :=
  l.foldl (fun acc x => insertVersionDesc x acc) []

/-- getAvailableVersions of index-parser.js: the versions of the
packager's platform entries with the requested architecture
(both case-insensitive), sorted descending. -/
def getAvailableVersions (idx : PackageIndex) (packager architecture : String) : List String :=
  match idx.packages.find? (fun p => strToLower p.name == strToLower packager) with
  | none => []
  | some pkg =>
    sortVersionsDesc ((pkg.platforms.filter
      (fun p => strToLower p.architecture == strToLower architecture)).map (·.version))

/-- findTool of index-parser.js: packager by case-insensitive name, tool
by exact name and version. -/
def findTool (idx : PackageIndex) (packager toolName version : String) : Option Tool :=
  match idx.packages.find? (fun p => strToLower p.name == strToLower packager) with
  | none => none
  | some pkg => pkg.tools.find? (fun t => t.name == toolName && t.version == version)

/-- getToolSystemForPlatform of index-parser.js: the first system of the
tool whose host classifies to the target platform. -/
def getToolSystemForPlatform (tool : Tool) (targetPlatform : String) : Option SystemEntry :=
  tool.systems.find? (fun s => toOpenBlockPlatform s.host == some targetPlatform)

/-- Core artifact descriptor produced by collectDownloadResources. -/
structure ResolvedPlatform where
  packager : String
  architecture : String
  version : String
  url : String
  checksum : String
  size : String
  archiveFileName : String
deriving DecidableEq, Repr

/-- Resolved tool artifact produced by collectDownloadResources. -/
structure ResolvedTool where
  packager : String
  name : String
  version : String
  url : String
  checksum : String
  size : String
  archiveFileName : String
deriving DecidableEq, Repr

/-- Result record of collectDownloadResources. -/
structure DownloadResources where
  platform : Option ResolvedPlatform
  tools : List ResolvedTool
  missingTools : List ToolDependency
  errors : List String
deriving DecidableEq, Repr

/-- collectToolResources is the toolsDependencies loop of
collectDownloadResources; it returns (tools, missingTools, errors). -/
def collectToolResources (idx : PackageIndex) (targetPlatform : String) :
    List ToolDependency → List ResolvedTool × List ToolDependency × List String
  | [] => ([], [], [])
  | dep :: rest =>
    let r := collectToolResources idx targetPlatform rest
    match findTool idx dep.packager dep.name dep.version with
    | none =>
      (r.1, r.2.1,
       ("Tool not found: " ++ dep.packager ++ "/" ++ dep.name ++ "@" ++ dep.version) :: r.2.2)
    | some tool =>
      match getToolSystemForPlatform tool targetPlatform with
      | none => (r.1, dep :: r.2.1, r.2.2)
      | some sys =>
        ({ packager := dep.packager, name := dep.name, version := dep.version,
           url := sys.url, checksum := sys.checksum, size := sys.size,
           archiveFileName := sys.archiveFileName } :: r.1, r.2.1, r.2.2)

/-- collectDownloadResources of index-parser.js: a missing core platform
is a hard error with no partial result; otherwise the core descriptor
plus, per tool dependency, either a hard error (tool definition absent),
a missingTools entry (no system classifies to the target platform), or a
resolved tool artifact. -/
def collectDownloadResources (idx : PackageIndex)
    (packager architecture version targetPlatform : String) : DownloadResources :=
  match findPlatform idx packager architecture version with
  | none =>
    { platform := none, tools := [], missingTools := [],
      errors := ["Platform not found: " ++ packager ++ ":" ++ architecture ++ "@" ++ version] }
  | some platform =>
    let r := collectToolResources idx targetPlatform platform.toolsDependencies
    { platform := some { packager := packager, architecture := architecture, version := version,
                         url := platform.url, checksum := platform.checksum,
                         size := platform.size, archiveFileName := platform.archiveFileName },
      tools := r.1, missingTools := r.2.1, errors := r.2.2 }

/-- parseCore of index-parser.js: `core.split(':')` destructured into
packager and architecture (a missing part is modelled as empty). -/
def parseCore (core : String) : String × String :=
  ((strSplitOnChar ':' core).headD "", ((strSplitOnChar ':' core).drop 1).headD "")

/-! packager.js -/

/-- VerifyOutcome of a verifyChecksum call: the boolean result, or the
JavaScript TypeError raised by `expected.toUpperCase()` when the digest
part after `:` is absent. -/
inductive VerifyOutcome where
  | ok (b : Bool)
  | typeError
deriving DecidableEq, Repr

/-- verifyChecksum of packager.js, with the downloaded file's actual
SHA-256 hex digest passed in place of hashing the file; the expected
checksum is `none` for a missing argument, and the empty string is the
other falsy case. -/
def verifyChecksum (actualHex : String) (expectedChecksum : Option String) : VerifyOutcome :=
  match expectedChecksum with
  | none => .ok true
  | some ec =>
    if ec = "" then .ok true
    else
      let parts := strSplitOnChar ':' ec
      let algorithm := parts.headD ""
      if strToUpper algorithm ≠ "SHA-256" then .ok true
      else
        match (parts.drop 1).head? with
        | none => .typeError
        | some expected => .ok (strToUpper actualHex == strToUpper expected)

/-- DownloadOutcome of downloadAndVerify once the download itself has
succeeded: the file is kept, or deleted with an error thrown, or an
exception propagates without the unlink (the TypeError case). -/
inductive DownloadOutcome where
  | accepted
  | deletedWithError
  | errorNoDelete
deriving DecidableEq, Repr

/-- downloadAndVerify of packager.js after a successful download: a
falsy expected checksum skips verification entirely; a verification
returning false deletes the file and throws; a verification exception
propagates before the unlink. -/
def downloadAndVerify (actualHex : String) (expectedChecksum : Option String) :
    DownloadOutcome :=
  match expectedChecksum with
  | none => .accepted
  | some ec =>
    if ec = "" then .accepted
    else
      match verifyChecksum actualHex (some ec) with
      | .ok true => .accepted
      | .ok false => .deletedWithError
      | .typeError => .errorNoDelete

/-- mergeStep processes one package of a fetched index against the
name-keyed accumulator: the `packageMap.get`/`set` body of
mergePackageIndexes (an existing entry concatenates `platforms` and
`tools`, otherwise the package is inserted at the end). -/
def mergeStep (acc : List PackageEntry) (pkg : PackageEntry) : List PackageEntry :=
  if acc.any (fun e => e.name == pkg.name) then
    acc.map (fun e =>
      if e.name == pkg.name then
        { e with platforms := e.platforms ++ pkg.platforms, tools := e.tools ++ pkg.tools }
      else e)
  else acc ++ [pkg]

/-- mergePackageIndexes of packager.js over the successfully fetched
indexes (an unreachable or invalid source is skipped by its catch and
contributes nothing). -/
def mergePackageIndexes (indexes : List PackageIndex) : PackageIndex :=
  { packages := (indexes.flatMap (·.packages)).foldl mergeStep [] }

/-- PackageOutcome is the control-flow result of packageToolchainDirect
up to the MissingToolsError throw: hard collect errors, a missing core,
the MissingToolsError (platform and missing identities), or the
assembled core plus resolved tools. -/
inductive PackageOutcome where
  | collectFailed (errors : List String)
  | platformMissing
  | missingTools (platform : String) (tools : List ToolDependency)
  | assembled (core : ResolvedPlatform) (tools : List ResolvedTool)
deriving DecidableEq, Repr

/-- packageToolchainDirect of packager.js: collect resources, abort on
hard errors, abort on a missing core, raise MissingToolsError carrying
exactly `resources.missingTools` when that list is non-empty, else
proceed to assembly with the resolved tools. -/
def packageToolchainDirect (idx : PackageIndex)
    (packager architecture version platform : String) : PackageOutcome :=
  let resources := collectDownloadResources idx packager architecture version platform
  if resources.errors ≠ [] then .collectFailed resources.errors
  else
    match resources.platform with
    | none => .platformMissing
    | some core =>
      if resources.missingTools ≠ [] then .missingTools platform resources.missingTools
      else .assembled core resources.tools

/-! calculate-diff.js -/

/-- Plan item: one (id, version, platform) triple of toAdd or toDelete. -/
structure Item where
  id : String
  version : String
  platform : String
deriving DecidableEq, Repr

/-- DiffState models the `Map<string, Set<string>>` states: an
insertion-ordered association list from `id@version` keys to platform
sets kept as insertion-ordered duplicate-free lists. -/
abbrev DiffState := List (String × List String)

/-- keyId is `key.split('@')[0]`. -/
def keyId (k : String) : String := (strSplitOnChar '@' k).headD ""

/-- keyVersion is `key.split('@')[1]` (empty for a missing part). -/
def keyVersion (k : String) : String := ((strSplitOnChar '@' k).drop 1).headD ""

/-- joinKey builds the `id@version` map key. -/
def joinKey (id version : String) : String := id ++ "@" ++ version

/-- keySplits k: the key has the exact shape `id@version` with `@`-free
components recoverable by keyId and keyVersion — true of every key the
code builds by the template literal from an `@`-free id and version. -/
def keySplits (k : String) : Prop :=
  joinKey (keyId k) (keyVersion k) = k ∧ '@' ∉ (keyId k).data ∧ '@' ∉ (keyVersion k).data

/-- jsMapGet is `Map.prototype.get` on an insertion-ordered association
list. -/
def jsMapGet {β : Type} (m : List (String × β)) (k : String) : Option β :=
  (m.find? (fun kv => kv.1 == k)).map (·.2)

/-- jsMapSet is `Map.prototype.set`: an existing key's value is replaced
in place, a new key is appended at the end. -/
def jsMapSet {β : Type} (m : List (String × β)) (k : String) (v : β) :
    List (String × β) :=
  if m.any (fun kv => kv.1 == k) then
    m.map (fun kv => if kv.1 == k then (k, v) else kv)
  else m ++ [(k, v)]

/-- lookupState is `Map.prototype.get` on a DiffState. -/
def lookupState (s : DiffState) (k : String) : Option (List String) :=
  jsMapGet s k

/-- stateHasKey is `Map.prototype.has` on a DiffState. -/
def stateHasKey (s : DiffState) (k : String) : Bool :=
  (s.find? (fun kv => kv.1 == k)).isSome

/-- calcToAdd is the first loop of calculateDiff: for every expected
key, every expected platform absent from the current set of that key. -/
def calcToAdd (expected current : DiffState) : List Item :=
  expected.flatMap (fun kv =>
    let curr := (lookupState current kv.1).getD []
    (kv.2.filter (fun p => !curr.contains p)).map
      (fun p => { id := keyId kv.1, version := keyVersion kv.1, platform := p }))

/-- calcToDelete is the second loop of calculateDiff: every current key
whose id occurs among the expected ids but whose exact key is absent
from expected contributes all of its platforms. -/
def calcToDelete (expected current : DiffState) : List Item :=
  current.flatMap (fun kv =>
    if expected.any (fun ekv => keyId ekv.1 == keyId kv.1) && !(stateHasKey expected kv.1) then
      kv.2.map (fun p => { id := keyId kv.1, version := keyVersion kv.1, platform := p })
    else [])

/-- calculateDiff of calculate-diff.js. -/
def calculateDiff (expected current : DiffState) : List Item × List Item :=
  (calcToAdd expected current, calcToDelete expected current)

/-- jsSetOfList is `new Set(list)`: duplicates dropped, first
occurrence order kept. -/
def jsSetOfList (l : List String) : List String :=
  l.foldl (fun acc x => if acc.contains x then acc else acc ++ [x]) []

/-- Toolchain entry of packages.json used by buildCurrentState. -/
structure ToolchainEntry where
  id : String
  version : String
  systems : List SystemEntry
deriving DecidableEq, Repr

/-- buildCurrentState of calculate-diff.js. -/
def buildCurrentState (toolchains : List ToolchainEntry) : DiffState :=
  toolchains.foldl (fun current t =>
    jsMapSet current (joinKey t.id t.version) (jsSetOfList (t.systems.map (·.host)))) []

/-- Configured package of toolchains.json (`id` and `core`). -/
structure ConfigPackage where
  id : String
  core : String
deriving DecidableEq, Repr

/-- VersionMap is the `Map<string, string>` from package id to its
latest upstream version. -/
abbrev VersionMap := List (String × String)

/-- fetchLatestStep is one iteration of the fetchLatestVersions loop:
parse the core, look up the available versions, record the head (the
latest) when the list is non-empty. -/
def fetchLatestStep (idx : PackageIndex) (m : VersionMap) (pkg : ConfigPackage) : VersionMap :=
  let pc := parseCore pkg.core
  match (getAvailableVersions idx pc.1 pc.2).head? with
  | some v => jsMapSet m pkg.id v
  | none => m

/-- fetchLatestVersions of calculate-diff.js applied to the fetched
merged package index: per configured package, the head of
getAvailableVersions (sorted descending, so the latest), recorded only
when the version list is non-empty. -/
def fetchLatestVersions (pkgs : List ConfigPackage) (idx : PackageIndex) : VersionMap :=
  pkgs.foldl (fetchLatestStep idx) []

/-- buildExpectedStep is one iteration of the buildExpectedState loop:
when a latest version is recorded for the package id, set the key
`id@version` to `new Set(OPENBLOCK_PLATFORMS)`. -/
def buildExpectedStep (latest : VersionMap) (expected : DiffState) (pkg : ConfigPackage) :
    DiffState :=
  match jsMapGet latest pkg.id with
  | some v => jsMapSet expected (joinKey pkg.id v) (jsSetOfList OPENBLOCK_PLATFORMS)
  | none => expected

/-- buildExpectedState of calculate-diff.js: per configured package with
a recorded latest version, the key `id@version` mapped to
`new Set(OPENBLOCK_PLATFORMS)`. -/
def buildExpectedState (pkgs : List ConfigPackage) (latest : VersionMap) : DiffState :=
  pkgs.foldl (buildExpectedStep latest) []

/-! sync.js -/

/-- PackResult abstracts one item's packaging attempt inside the
additions loop of sync: success (artifact uploaded), a MissingToolsError
carrying the missing identities, or any other thrown error. -/
inductive PackResult where
  | success
  | missingToolsErr (tools : List ToolDependency)
  | otherErr (msg : String)
deriving DecidableEq, Repr

/-- ItemRecord is how the sync loop records one processed item:
addedItems, skippedItems (with the missing tools), or a failure count. -/
inductive ItemRecord where
  | added
  | skipped (missing : List ToolDependency)
  | failed
deriving DecidableEq, Repr

/-- recordOfResult is the catch of the additions loop: a
MissingToolsError records the item as skipped with its missingTools,
any other error records it as failed, success records it as added. -/
def recordOfResult : PackResult → ItemRecord
  | .success => .added
  | .missingToolsErr ts => .skipped ts
  | .otherErr _ => .failed

/-- processAdditions folds the additions loop of sync over its items:
every item is processed and yields a record (the catch keeps the loop
going, so siblings continue after a failure). -/
def processAdditions (items : List Item) (result : Item → PackResult) :
    List (Item × ItemRecord) :=
  items.map (fun it => (it, recordOfResult (result it)))

/-- isSuccess tests a PackResult for the success case. -/
def isSuccess : PackResult → Bool
  | .success => true
  | _ => false

/-- SyncEvent is one externally visible blob-store effect of a sync run:
an artifact upload (r2Client.uploadFile inside packageArduinoToolchain),
an artifact deletion (r2Client.deleteFile), or the single packages.json
rewrite (r2Client.uploadJson in updatePackagesJsonFile). -/
inductive SyncEvent where
  | uploadArtifact (it : Item)
  | deleteArtifact (it : Item)
  | writeManifest
deriving DecidableEq, Repr

/-- syncEvents is the effect order of sync (non-dry-run path): the
additions loop first (each successfully packaged item performs its
upload there), then the deletions loop (each toDelete item has its
deleteFile issued), then — when anything was added or deleted — the
single packages.json rewrite of updatePackagesJsonFile. -/
def syncEvents (toAdd toDelete : List Item) (result : Item → PackResult)
    (deleteOk : Item → Bool) : List SyncEvent :=
  (toAdd.filter (fun it => isSuccess (result it))).map SyncEvent.uploadArtifact
  ++ toDelete.map SyncEvent.deleteArtifact
  ++ (if toAdd.any (fun it => isSuccess (result it)) || toDelete.any deleteOk then
        [SyncEvent.writeManifest]
      else [])

/-- isUploadEvent tests for an artifact upload. -/
def isUploadEvent : SyncEvent → Bool
  | .uploadArtifact _ => true
  | _ => false

/-- isDeleteEvent tests for an artifact deletion. -/
def isDeleteEvent : SyncEvent → Bool
  | .deleteArtifact _ => true
  | _ => false

/-- uploadsPrecedeDeletes: in a trace, every artifact upload happens
before every artifact deletion. -/
def uploadsPrecedeDeletes (t : List SyncEvent) : Prop :=
  ∀ i j, (hi : i < t.length) → (hj : j < t.length) →
    isUploadEvent (t.get ⟨i, hi⟩) = true → isDeleteEvent (t.get ⟨j, hj⟩) = true → i < j

/-- manifestPrecedesDeletes: in a trace, every manifest rewrite happens
before every artifact deletion. -/
def manifestPrecedesDeletes (t : List SyncEvent) : Prop :=
  ∀ i j, (hi : i < t.length) → (hj : j < t.length) →
    t.get ⟨i, hi⟩ = SyncEvent.writeManifest → isDeleteEvent (t.get ⟨j, hj⟩) = true → i < j

/-- deletesPrecedeManifest: in a trace, every artifact deletion happens
before every manifest rewrite. -/
def deletesPrecedeManifest (t : List SyncEvent) : Prop :=
  ∀ i j, (hi : i < t.length) → (hj : j < t.length) →
    isDeleteEvent (t.get ⟨i, hi⟩) = true → t.get ⟨j, hj⟩ = SyncEvent.writeManifest → i < j

/-! Applying a diff plan to a current state (updatePackagesJsonFile
semantics): deletions filter the platform out of the entry of their
`id@version` key, entries left without platforms are dropped, then each
added platform is appended under its key (created at the end when
absent). -/

/-- removePlatform removes one toDelete item's platform from the entry
of its key. -/
def removePlatform (s : DiffState) (it : Item) : DiffState :=
  s.map (fun kv =>
    if kv.1 == joinKey it.id it.version then (kv.1, kv.2.filter (fun p => p ≠ it.platform))
    else kv)

/-- dropEmptyKeys drops entries whose platform set became empty. -/
def dropEmptyKeys (s : DiffState) : DiffState :=
  s.filter (fun kv => !kv.2.isEmpty)

/-- addPlatform appends one toAdd item's platform under its key,
creating the entry at the end when the key is absent. -/
def addPlatform (s : DiffState) (it : Item) : DiffState :=
  if s.any (fun kv => kv.1 == joinKey it.id it.version) then
    s.map (fun kv =>
      if kv.1 == joinKey it.id it.version then (kv.1, kv.2 ++ [it.platform]) else kv)
  else s ++ [(joinKey it.id it.version, [it.platform])]

/-- applyPlan applies a full diff plan to a current state: all deletions
(with empty keys dropped), then all additions. -/
def applyPlan (s : DiffState) (plan : List Item × List Item) : DiffState :=
  plan.1.foldl addPlatform (dropEmptyKeys (plan.2.foldl removePlatform s))

/-! Concrete fixtures used to evaluate the embedded code at specific
inputs. -/

/-- A system of the demo tool that exists only for the Intel macOS
host. -/
def fallbackDemoSystem : SystemEntry :=
  { host := "x86_64-apple-darwin14", url := "https://example.invalid/ctags.tar.bz2",
    checksum := "SHA-256:00", size := "1", archiveFileName := "ctags.tar.bz2" }

/-- A demo tool whose only binary is the Intel macOS one. -/
def fallbackDemoTool : Tool :=
  { name := "ctags", version := "5.8", systems := [fallbackDemoSystem] }

/-- The demo platform's single tool dependency. -/
def fallbackDemoDep : ToolDependency :=
  { packager := "arduino", name := "ctags", version := "5.8" }

/-- A demo core platform entry depending on the demo tool. -/
def fallbackDemoPlatform : PlatformEntry :=
  { architecture := "avr", version := "1.8.6", url := "https://example.invalid/avr.tar.bz2",
    checksum := "SHA-256:11", size := "2", archiveFileName := "avr.tar.bz2",
    toolsDependencies := [fallbackDemoDep] }

/-- A demo package index with one packager, one core and one tool. -/
def fallbackDemoIndex : PackageIndex :=
  { packages := [{ name := "arduino", platforms := [fallbackDemoPlatform],
                   tools := [fallbackDemoTool] }] }

/-- A demo toAdd item. -/
def demoAddItem : Item :=
  { id := "arduino-arduino-avr", version := "1.8.6", platform := "win32-x64" }

/-- A demo toDelete item. -/
def demoDeleteItem : Item :=
  { id := "arduino-arduino-avr", version := "1.8.5", platform := "win32-x64" }

/-- First source's platform entry in the merge demo. -/
def mergeDemoPlatformA : PlatformEntry :=
  { architecture := "avr", version := "1.0.0", url := "uA", checksum := "cA", size := "1",
    archiveFileName := "aA", toolsDependencies := [] }

/-- Second source's platform entry in the merge demo. -/
def mergeDemoPlatformB : PlatformEntry :=
  { architecture := "avr", version := "2.0.0", url := "uB", checksum := "cB", size := "2",
    archiveFileName := "aB", toolsDependencies := [] }

/-- First source's tool in the merge demo. -/
def mergeDemoToolA : Tool := { name := "tA", version := "1", systems := [] }

/-- Second source's tool in the merge demo. -/
def mergeDemoToolB : Tool := { name := "tB", version := "1", systems := [] }

/-- First demo index declaring packager arduino. -/
def mergeDemoIndexA : PackageIndex :=
  { packages := [{ name := "arduino", platforms := [mergeDemoPlatformA],
                   tools := [mergeDemoToolA] }] }

/-- Second demo index declaring the same packager name. -/
def mergeDemoIndexB : PackageIndex :=
  { packages := [{ name := "arduino", platforms := [mergeDemoPlatformB],
                   tools := [mergeDemoToolB] }] }

/-- The single merged entry expected for the merge demo. -/
def mergeDemoEntry : PackageEntry :=
  { name := "arduino", platforms := [mergeDemoPlatformA, mergeDemoPlatformB],
    tools := [mergeDemoToolA, mergeDemoToolB] }

/-- Configured package used in the expected-state demo. -/
def versionDemoConfig : ConfigPackage := { id := "arduino-arduino-avr", core := "arduino:avr" }

/-- Expected state of the diff demo: x pinned at 2.0.0 on two platforms. -/
def diffDemoExpected : DiffState := [("x@2.0.0", ["win32-x64", "darwin-x64"])]

/-- Current state of the diff demo: stale x at 1.0.0 and unmanaged y. -/
def diffDemoCurrent : DiffState :=
  [("x@1.0.0", ["win32-x64", "darwin-x64"]), ("y@1.0.0", ["win32-x64"])]

/-! General helper lemmas -/

theorem find?_first_index {α : Type} (p : α → Bool) (l : List α) (x : α)
    (h : l.find? p = some x) :
    ∃ i, ∃ hi : i < l.length, l.get ⟨i, hi⟩ = x ∧ p x = true ∧
      ∀ j, (hj : j < l.length) → j < i → p (l.get ⟨j, hj⟩) = false := by
  induction l with
  | nil => simp [List.find?] at h
  | cons a as ih =>
    by_cases hp : p a
    · rw [List.find?_cons_of_pos _ hp] at h
      obtain rfl := Option.some.inj h
      exact ⟨0, by simp, rfl, hp, fun j hj hj0 => absurd hj0 (Nat.not_lt_zero j)⟩
    · rw [List.find?_cons_of_neg _ hp] at h
      obtain ⟨i, hi, hget, hpx, hfirst⟩ := ih h
      refine ⟨i + 1, by simpa using Nat.succ_lt_succ hi, by simpa using hget, hpx, ?_⟩
      intro j hj hji
      cases j with
      | zero => simpa using hp
      | succ j' =>
        have hj' : j' < as.length := by simpa using Nat.lt_of_succ_lt_succ hj
        simpa using hfirst j' hj' (Nat.lt_of_succ_lt_succ hji)

theorem collect_errors_empty_platform_some (idx : PackageIndex) (pk ar v pl : String)
    (h : (collectDownloadResources idx pk ar v pl).errors = []) :
    (collectDownloadResources idx pk ar v pl).platform.isSome = true := by
  unfold collectDownloadResources at h ⊢
  cases hfp : findPlatform idx pk ar v with
  | none => rw [hfp] at h; simp at h
  | some p => simp

/-! Claim theorems -/

/-- C1 (code bug in the source): collectDownloadResources appends a tool
dependency to missingTools as soon as no system classifies to the native
target platform, never retrying with the fallback platform; at this
input the target is darwin-arm64, getFallbackPlatform maps it to
darwin-x64, and the tool does have a darwin-x64 system, yet the tool is
still reported missing (with no hard errors), contradicting the claimed
fallback retry. -/
theorem C1_no_fallback_retry_in_resolution :
    (collectDownloadResources fallbackDemoIndex "arduino" "avr" "1.8.6" "darwin-arm64").errors
      = []
    ∧ (collectDownloadResources fallbackDemoIndex "arduino" "avr" "1.8.6"
        "darwin-arm64").missingTools = [fallbackDemoDep]
    ∧ getFallbackPlatform "darwin-arm64" = some "darwin-x64"
    ∧ (getToolSystemForPlatform fallbackDemoTool "darwin-x64").isSome = true
    ∧ getToolSystemForPlatform fallbackDemoTool "darwin-arm64" = none := by
  refine ⟨by decide, by decide, by decide, by decide, by decide⟩

/-- C7: the classifier lower-cases the host and returns the platform of
the first rule in PLATFORM_MATCHERS whose arch keywords, OS keywords and
exclude keywords pass on the lowered string, none when no rule passes;
in particular aarch64-apple-darwin20 classifies to darwin-arm64 and
armv7l-linux-gnueabihf to linux-arm. -/
theorem C7_classifier_first_match :
    (∀ h p, toOpenBlockPlatform h = some p →
      ∃ i, ∃ hi : i < PLATFORM_MATCHERS.length,
        (PLATFORM_MATCHERS.get ⟨i, hi⟩).platform = p ∧
        matcherMatches (strToLower h) (PLATFORM_MATCHERS.get ⟨i, hi⟩) = true ∧
        ∀ j, (hj : j < PLATFORM_MATCHERS.length) → j < i →
          matcherMatches (strToLower h) (PLATFORM_MATCHERS.get ⟨j, hj⟩) = false) ∧
    (∀ h, toOpenBlockPlatform h = none →
      ∀ m ∈ PLATFORM_MATCHERS, matcherMatches (strToLower h) m = false) ∧
    toOpenBlockPlatform "aarch64-apple-darwin20" = some "darwin-arm64" ∧
    toOpenBlockPlatform "armv7l-linux-gnueabihf" = some "linux-arm" := by
  refine ⟨?_, ?_, by decide, by decide⟩
  · intro h p hp
    unfold toOpenBlockPlatform at hp
    split at hp
    · exact absurd hp (by simp)
    · obtain ⟨m, hfind, hplat⟩ := Option.map_eq_some'.mp hp
      obtain ⟨i, hi, hget, hmatch, hfirst⟩ := find?_first_index _ _ _ hfind
      exact ⟨i, hi, by rw [hget]; exact hplat, by rw [hget]; exact hmatch, hfirst⟩
  · intro h hn
    unfold toOpenBlockPlatform at hn
    split at hn
    · rename_i hempty
      subst hempty
      decide
    · have hfn := Option.map_eq_none'.mp hn
      intro m hm
      have := List.find?_eq_none.mp hfn m hm
      simpa using this

/-- C7 witness: the first-match characterization applied at the
aarch64-apple-darwin20 input. -/
theorem C7_classifier_first_match_witness :
    ∃ i, ∃ hi : i < PLATFORM_MATCHERS.length,
      (PLATFORM_MATCHERS.get ⟨i, hi⟩).platform = "darwin-arm64" ∧
      matcherMatches (strToLower "aarch64-apple-darwin20") (PLATFORM_MATCHERS.get ⟨i, hi⟩)
        = true ∧
      ∀ j, (hj : j < PLATFORM_MATCHERS.length) → j < i →
        matcherMatches (strToLower "aarch64-apple-darwin20") (PLATFORM_MATCHERS.get ⟨j, hj⟩)
          = false :=
  C7_classifier_first_match.1 "aarch64-apple-darwin20" "darwin-arm64" (by decide)

/-- C8 counterexample: the claim restricts the classifier's range to the
six OPENBLOCK_PLATFORMS, but i686-mingw32 classifies to win32-ia32,
which is not one of them. -/
theorem C8_range_counterexample :
    toOpenBlockPlatform "i686-mingw32" = some "win32-ia32" ∧
      "win32-ia32" ∉ OPENBLOCK_PLATFORMS := by
  exact ⟨by decide, by decide⟩

/-- C8 (amended): every non-none classifier result is one of the seven
platform identifiers named by PLATFORM_MATCHERS — the six canonical
OPENBLOCK_PLATFORMS plus the fallback-only win32-ia32. -/
theorem C8_classifier_range_amended :
    ∀ h p, toOpenBlockPlatform h = some p →
      p ∈ PLATFORM_MATCHERS.map (·.platform) ∧
      (p ∈ OPENBLOCK_PLATFORMS ∨ p = "win32-ia32") := by
  intro h p hp
  have hmem : p ∈ PLATFORM_MATCHERS.map (·.platform) := by
    unfold toOpenBlockPlatform at hp
    split at hp
    · exact absurd hp (by simp)
    · obtain ⟨m, hfind, hplat⟩ := Option.map_eq_some'.mp hp
      exact hplat ▸ List.mem_map_of_mem _ (List.mem_of_find?_eq_some hfind)
  refine ⟨hmem, ?_⟩
  have hrange : ∀ q ∈ PLATFORM_MATCHERS.map (·.platform),
      q ∈ OPENBLOCK_PLATFORMS ∨ q = "win32-ia32" := by decide
  exact hrange p hmem

/-- C8 witness: the amended range theorem applied at the i686-mingw32
input. -/
theorem C8_classifier_range_amended_witness :
    "win32-ia32" ∈ PLATFORM_MATCHERS.map (·.platform) ∧
      ("win32-ia32" ∈ OPENBLOCK_PLATFORMS ∨ "win32-ia32" = "win32-ia32") :=
  C8_classifier_range_amended "i686-mingw32" "win32-ia32" (by decide)

/-- C9: a resolution with no hard errors and a non-empty missingTools
list makes packageToolchainDirect terminate with the MissingToolsError
outcome carrying exactly those identities; the sync additions loop
records such an item as skipped (not failed), records any other thrown
error as failed, and yields a record for every item of the batch, so
siblings continue to be processed. -/
theorem C9_missing_tools_skipped (idx : PackageIndex) (pk ar v pl : String)
    (he : (collectDownloadResources idx pk ar v pl).errors = [])
    (hm : (collectDownloadResources idx pk ar v pl).missingTools ≠ []) :
    packageToolchainDirect idx pk ar v pl
      = PackageOutcome.missingTools pl (collectDownloadResources idx pk ar v pl).missingTools
    ∧ recordOfResult (PackResult.missingToolsErr
        (collectDownloadResources idx pk ar v pl).missingTools)
      = ItemRecord.skipped (collectDownloadResources idx pk ar v pl).missingTools
    ∧ (∀ msg, recordOfResult (PackResult.otherErr msg) = ItemRecord.failed)
    ∧ (∀ items result, (processAdditions items result).map Prod.fst = items) := by
  refine ⟨?_, rfl, fun msg => rfl, ?_⟩
  · have hp := collect_errors_empty_platform_some idx pk ar v pl he
    obtain ⟨core, hcore⟩ := Option.isSome_iff_exists.mp hp
    simp [packageToolchainDirect, he, hcore, hm]
  · intro items result
    simp only [processAdditions, List.map_map]
    exact List.map_id items

/-- C9 witness: the missing-tools outcome at the concrete demo catalog,
target darwin-arm64. -/
theorem C9_missing_tools_skipped_witness :
    packageToolchainDirect fallbackDemoIndex "arduino" "avr" "1.8.6" "darwin-arm64"
      = PackageOutcome.missingTools "darwin-arm64"
          (collectDownloadResources fallbackDemoIndex "arduino" "avr" "1.8.6"
            "darwin-arm64").missingTools
    ∧ recordOfResult (PackResult.missingToolsErr
        (collectDownloadResources fallbackDemoIndex "arduino" "avr" "1.8.6"
          "darwin-arm64").missingTools)
      = ItemRecord.skipped
          (collectDownloadResources fallbackDemoIndex "arduino" "avr" "1.8.6"
            "darwin-arm64").missingTools
    ∧ (∀ msg, recordOfResult (PackResult.otherErr msg) = ItemRecord.failed)
    ∧ (∀ items result, (processAdditions items result).map Prod.fst = items) :=
  C9_missing_tools_skipped fallbackDemoIndex "arduino" "avr" "1.8.6" "darwin-arm64"
    (by decide) (by decide)

theorem get_append_mem_left {α : Type} (l₁ l₂ : List α) (i : Nat)
    (h : i < (l₁ ++ l₂).length) (hlt : i < l₁.length) :
    (l₁ ++ l₂).get ⟨i, h⟩ ∈ l₁ := by
  rw [List.get_eq_getElem, List.getElem_append_left hlt]
  exact List.getElem_mem _

theorem get_append_mem_right {α : Type} (l₁ l₂ : List α) (i : Nat)
    (h : i < (l₁ ++ l₂).length) (hge : l₁.length ≤ i) :
    (l₁ ++ l₂).get ⟨i, h⟩ ∈ l₂ := by
  rw [List.get_eq_getElem, List.getElem_append_right hge]
  exact List.getElem_mem _

theorem append3_classify {α : Type} (U D M : List α) (k : Nat)
    (hk : k < (U ++ D ++ M).length) :
    (k < U.length ∧ (U ++ D ++ M).get ⟨k, hk⟩ ∈ U) ∨
    (U.length ≤ k ∧ k < U.length + D.length ∧ (U ++ D ++ M).get ⟨k, hk⟩ ∈ D) ∨
    (U.length + D.length ≤ k ∧ (U ++ D ++ M).get ⟨k, hk⟩ ∈ M) := by
  have hlen : (U ++ D).length = U.length + D.length := by simp
  rcases Nat.lt_or_ge k (U.length + D.length) with h1 | h1
  · have hUD : k < (U ++ D).length := by omega
    have hmem : (U ++ D ++ M).get ⟨k, hk⟩ ∈ U ++ D := get_append_mem_left _ _ _ _ hUD
    have hget : (U ++ D ++ M).get ⟨k, hk⟩ = (U ++ D).get ⟨k, hUD⟩ := by
      rw [List.get_eq_getElem, List.get_eq_getElem, List.getElem_append_left hUD]
    rcases Nat.lt_or_ge k U.length with h2 | h2
    · left
      exact ⟨h2, by rw [hget]; exact get_append_mem_left _ _ _ _ h2⟩
    · right; left
      exact ⟨h2, h1, by rw [hget]; exact get_append_mem_right _ _ _ _ h2⟩
  · right; right
    have hge : (U ++ D).length ≤ k := by omega
    exact ⟨h1, get_append_mem_right _ _ _ _ hge⟩

/-- C2 (amended): in the effect order of a sync run every planned
addition's blob upload happens before every deletion is issued, and the
single packages.json rewrite happens after the deletions (not before
them, as the claim states). -/
theorem C2_sync_effect_order (toAdd toDelete : List Item) (result : Item → PackResult)
    (deleteOk : Item → Bool) :
    uploadsPrecedeDeletes (syncEvents toAdd toDelete result deleteOk) ∧
    deletesPrecedeManifest (syncEvents toAdd toDelete result deleteOk) := by
  have hU : ∀ e ∈ (toAdd.filter (fun it => isSuccess (result it))).map SyncEvent.uploadArtifact,
      isUploadEvent e = true ∧ isDeleteEvent e = false ∧ e ≠ SyncEvent.writeManifest := by
    intro e he
    obtain ⟨it, -, rfl⟩ := List.mem_map.mp he
    exact ⟨rfl, rfl, by simp⟩
  have hD : ∀ e ∈ toDelete.map SyncEvent.deleteArtifact,
      isUploadEvent e = false ∧ isDeleteEvent e = true ∧ e ≠ SyncEvent.writeManifest := by
    intro e he
    obtain ⟨it, -, rfl⟩ := List.mem_map.mp he
    exact ⟨rfl, rfl, by simp⟩
  have hM : ∀ e ∈ (if toAdd.any (fun it => isSuccess (result it)) || toDelete.any deleteOk then
        [SyncEvent.writeManifest] else ([] : List SyncEvent)),
      isUploadEvent e = false ∧ isDeleteEvent e = false := by
    intro e he
    split at he
    · obtain rfl : e = SyncEvent.writeManifest := by simpa using he
      exact ⟨rfl, rfl⟩
    · simp at he
  have ht : syncEvents toAdd toDelete result deleteOk
      = (toAdd.filter (fun it => isSuccess (result it))).map SyncEvent.uploadArtifact
        ++ toDelete.map SyncEvent.deleteArtifact
        ++ (if toAdd.any (fun it => isSuccess (result it)) || toDelete.any deleteOk then
              [SyncEvent.writeManifest] else []) := by
    simp [syncEvents, List.append_assoc]
  constructor
  · unfold uploadsPrecedeDeletes
    rw [ht]
    intro i j hi hj hup hdel
    rcases append3_classify _ _ _ i hi with ⟨hlt, -⟩ | ⟨-, -, hmem⟩ | ⟨-, hmem⟩
    · rcases append3_classify _ _ _ j hj with ⟨-, hmem⟩ | ⟨hge, -, -⟩ | ⟨hge, hmem⟩
      · exact absurd hdel (by rw [(hU _ hmem).2.1]; simp)
      · omega
      · exact absurd hdel (by rw [(hM _ hmem).2]; simp)
    · exact absurd hup (by rw [(hD _ hmem).1]; simp)
    · exact absurd hup (by rw [(hM _ hmem).1]; simp)
  · unfold deletesPrecedeManifest
    rw [ht]
    intro i j hi hj hdel hw
    rcases append3_classify _ _ _ i hi with ⟨-, hmem⟩ | ⟨-, hlt, -⟩ | ⟨-, hmem⟩
    · exact absurd hdel (by rw [(hU _ hmem).2.1]; simp)
    · rcases append3_classify _ _ _ j hj with ⟨-, hmem⟩ | ⟨-, -, hmem⟩ | ⟨hge, -⟩
      · exact absurd hw ((hU _ hmem).2.2)
      · exact absurd hw ((hD _ hmem).2.2)
      · omega
    · exact absurd hdel (by rw [(hM _ hmem).2]; simp)

/-- C2 counterexample: with one addition and one deletion the trace is
upload, delete, manifest rewrite — the deletion is issued before the
manifest is rewritten, refuting the claim that the manifest rewrite
precedes deletions. -/
theorem C2_manifest_after_delete_counterexample :
    ¬ (uploadsPrecedeDeletes
        (syncEvents [demoAddItem] [demoDeleteItem] (fun _ => PackResult.success)
          (fun _ => true)) ∧
       manifestPrecedesDeletes
        (syncEvents [demoAddItem] [demoDeleteItem] (fun _ => PackResult.success)
          (fun _ => true))) := by
  rintro ⟨-, h⟩
  have h21 := h 2 1 (by decide) (by decide) (by decide) (by decide)
  omega

/-- C2 witness: the amended ordering applied at the one-addition,
one-deletion input, showing upload (index 0) before delete (index 1). -/
theorem C2_sync_effect_order_witness :
    isUploadEvent ((syncEvents [demoAddItem] [demoDeleteItem] (fun _ => PackResult.success)
        (fun _ => true)).get ⟨0, by decide⟩) = true ∧
    isDeleteEvent ((syncEvents [demoAddItem] [demoDeleteItem] (fun _ => PackResult.success)
        (fun _ => true)).get ⟨1, by decide⟩) = true ∧
    (0 : Nat) < 1 :=
  ⟨by decide, by decide,
    (C2_sync_effect_order [demoAddItem] [demoDeleteItem] (fun _ => PackResult.success)
      (fun _ => true)).1 0 1 (by decide) (by decide) (by decide) (by decide)⟩

/-- C10: download verification compares digests only when the expected
checksum is present and its algorithm prefix before `:` is SHA-256
case-insensitively; an absent or empty checksum and any other algorithm
prefix are accepted without comparison, and exactly a present SHA-256
digest differing case-insensitively from the file's actual digest makes
downloadAndVerify delete the file and raise the error. -/
theorem C10_checksum_policy :
    (∀ actual : String,
      downloadAndVerify actual none = DownloadOutcome.accepted ∧
      downloadAndVerify actual (some "") = DownloadOutcome.accepted ∧
      verifyChecksum actual none = VerifyOutcome.ok true ∧
      verifyChecksum actual (some "") = VerifyOutcome.ok true) ∧
    (∀ actual ec : String, ec ≠ "" →
      strToUpper ((strSplitOnChar ':' ec).headD "") ≠ "SHA-256" →
      verifyChecksum actual (some ec) = VerifyOutcome.ok true ∧
      downloadAndVerify actual (some ec) = DownloadOutcome.accepted) ∧
    (∀ actual ec digest : String, ec ≠ "" →
      strToUpper ((strSplitOnChar ':' ec).headD "") = "SHA-256" →
      ((strSplitOnChar ':' ec).drop 1).head? = some digest →
      (downloadAndVerify actual (some ec) = DownloadOutcome.accepted ↔
        strToUpper actual = strToUpper digest) ∧
      (downloadAndVerify actual (some ec) = DownloadOutcome.deletedWithError ↔
        strToUpper actual ≠ strToUpper digest)) ∧
    (∀ (actual : String) (ec : Option String),
      downloadAndVerify actual ec = DownloadOutcome.deletedWithError →
      ∃ s digest, ec = some s ∧ s ≠ "" ∧
        strToUpper ((strSplitOnChar ':' s).headD "") = "SHA-256" ∧
        ((strSplitOnChar ':' s).drop 1).head? = some digest ∧
        strToUpper actual ≠ strToUpper digest) := by
  refine ⟨?_, ?_, ?_, ?_⟩
  · intro actual
    exact ⟨rfl, by simp [downloadAndVerify], rfl, by simp [verifyChecksum]⟩
  · intro actual ec hne halg
    have hv : verifyChecksum actual (some ec) = VerifyOutcome.ok true := by
      simp only [verifyChecksum]
      rw [if_neg hne, if_pos halg]
    exact ⟨hv, by simp only [downloadAndVerify]; rw [if_neg hne, hv]⟩
  · intro actual ec digest hne halg hdig
    have hv : verifyChecksum actual (some ec)
        = VerifyOutcome.ok (strToUpper actual == strToUpper digest) := by
      simp only [verifyChecksum]
      rw [if_neg hne, if_neg (not_not_intro halg), hdig]
    constructor
    · constructor
      · intro hacc
        simp only [downloadAndVerify] at hacc
        rw [if_neg hne, hv] at hacc
        by_cases hbe : strToUpper actual == strToUpper digest
        · exact eq_of_beq hbe
        · rw [Bool.not_eq_true] at hbe
          rw [hbe] at hacc
          simp at hacc
      · intro heq
        simp only [downloadAndVerify]
        rw [if_neg hne, hv]
        have : (strToUpper actual == strToUpper digest) = true := beq_iff_eq.mpr heq
        rw [this]
    · constructor
      · intro hdel
        simp only [downloadAndVerify] at hdel
        rw [if_neg hne, hv] at hdel
        intro heq
        have : (strToUpper actual == strToUpper digest) = true := beq_iff_eq.mpr heq
        rw [this] at hdel
        simp at hdel
      · intro hneq
        simp only [downloadAndVerify]
        rw [if_neg hne, hv]
        have : (strToUpper actual == strToUpper digest) = false := by
          simpa using hneq
        rw [this]
  · intro actual ec hdel
    cases ec with
    | none => simp [downloadAndVerify] at hdel
    | some s =>
      by_cases hs : s = ""
      · subst hs
        simp [downloadAndVerify] at hdel
      · simp only [downloadAndVerify] at hdel
        rw [if_neg hs] at hdel
        simp only [verifyChecksum] at hdel
        rw [if_neg hs] at hdel
        by_cases halg : strToUpper ((strSplitOnChar ':' s).headD "") ≠ "SHA-256"
        · rw [if_pos halg] at hdel
          simp at hdel
        · rw [if_neg halg] at hdel
          rw [not_not] at halg
          cases hdig : ((strSplitOnChar ':' s).drop 1).head? with
          | none => rw [hdig] at hdel; simp at hdel
          | some digest =>
            rw [hdig] at hdel
            refine ⟨s, digest, rfl, hs, halg, hdig, ?_⟩
            cases hbe : strToUpper actual == strToUpper digest with
            | true => simp [hbe] at hdel
            | false =>
              intro heq
              exact absurd (beq_iff_eq.mpr heq) (by simp [hbe])

/-- C10 witness: the other-algorithm acceptance clause applied at the
MD5 checksum input. -/
theorem C10_checksum_policy_witness :
    verifyChecksum "ab" (some "MD5:ff") = VerifyOutcome.ok true ∧
    downloadAndVerify "ab" (some "MD5:ff") = DownloadOutcome.accepted :=
  C10_checksum_policy.2.1 "ab" "MD5:ff" (by decide) (by decide)

theorem find?_key_eq_of_mem_nodup {α : Type} (key : α → String) {l : List α}
    (h : (l.map key).Nodup) {e : α} (he : e ∈ l) :
    l.find? (fun x => key x == key e) = some e := by
  induction l with
  | nil => simp at he
  | cons a as ih =>
    rcases List.mem_cons.mp he with rfl | hmem
    · exact List.find?_cons_of_pos _ (by simp)
    · have hne : key a ≠ key e := by
        intro hk
        have : key e ∈ as.map key := List.mem_map_of_mem key hmem
        rw [List.map_cons] at h
        exact (List.nodup_cons.mp h).1 (hk ▸ this)
      rw [List.find?_cons_of_neg _ (by simp [hne])]
      exact ih (by rw [List.map_cons] at h; exact (List.nodup_cons.mp h).2) hmem

theorem mergeStep_map_name (acc : List PackageEntry) (pkg : PackageEntry) :
    (mergeStep acc pkg).map (·.name)
      = if acc.any (fun e => e.name == pkg.name) then acc.map (·.name)
        else acc.map (·.name) ++ [pkg.name] := by
  unfold mergeStep
  split
  · rw [List.map_map]
    apply List.map_congr_left
    intro e he
    simp only [Function.comp]
    split <;> rfl
  · simp

theorem find?_name_mergeStep (acc : List PackageEntry) (pkg : PackageEntry) (n : String) :
    (mergeStep acc pkg).find? (fun e => e.name == n)
      = if pkg.name = n then
          match acc.find? (fun e => e.name == n) with
          | some e =>
            some { e with
              platforms := e.platforms ++ pkg.platforms,
              tools := e.tools ++ pkg.tools }
          | none => some pkg
        else acc.find? (fun e => e.name == n) := by
  unfold mergeStep
  split
  · rename_i hany
    have hmap : ((acc.map (fun e =>
        if e.name == pkg.name then
          { e with platforms := e.platforms ++ pkg.platforms, tools := e.tools ++ pkg.tools }
        else e)).find? (fun e => e.name == n))
        = (acc.find? (fun e => e.name == n)).map (fun e =>
            if e.name == pkg.name then
              { e with
                platforms := e.platforms ++ pkg.platforms,
                tools := e.tools ++ pkg.tools }
            else e) := by
      rw [List.find?_map]
      have hpred : ((fun e : PackageEntry => e.name == n) ∘ (fun e =>
          if e.name == pkg.name then
            { e with platforms := e.platforms ++ pkg.platforms, tools := e.tools ++ pkg.tools }
          else e)) = (fun e : PackageEntry => e.name == n) := by
        funext e
        simp only [Function.comp]
        split <;> rfl
      rw [hpred]
    rw [hmap]
    by_cases hn : pkg.name = n
    · rw [if_pos hn]
      cases hfind : acc.find? (fun e => e.name == n) with
      | none =>
        exfalso
        obtain ⟨e, hmem, he⟩ := List.any_eq_true.mp hany
        have := List.find?_eq_none.mp hfind e hmem
        rw [hn] at he
        exact this he
      | some e =>
        have hename : e.name = n := by simpa using List.find?_some hfind
        simp [hename, hn]
    · rw [if_neg hn]
      cases hfind : acc.find? (fun e => e.name == n) with
      | none => rfl
      | some e =>
        have hename : e.name = n := by simpa using List.find?_some hfind
        have hne : ¬ ((e.name == pkg.name) = true) := by
          simp [hename]
          intro hq
          exact hn hq.symm
        simp only [Option.map_some']
        rw [if_neg hne]
  · rename_i hany
    rw [List.find?_append]
    by_cases hn : pkg.name = n
    · rw [if_pos hn]
      cases hfind : acc.find? (fun e => e.name == n) with
      | none => simp [hn]
      | some e =>
        exfalso
        have hename : e.name = n := by simpa using List.find?_some hfind
        exact hany (List.any_eq_true.mpr ⟨e, List.mem_of_find?_eq_some hfind, by simp [hename, hn]⟩)
    · rw [if_neg hn]
      have hnone : ([pkg].find? (fun e => e.name == n)) = none := by
        rw [List.find?_cons_of_neg _ (by simpa using hn)]
        rfl
      rw [hnone, Option.or_none]

theorem foldl_mergeStep_find? (ps : List PackageEntry) : ∀ (acc : List PackageEntry) (n : String),
    (ps.foldl mergeStep acc).find? (fun e => e.name == n)
      = match acc.find? (fun e => e.name == n) with
        | some e => some { e with
            platforms := e.platforms ++ (ps.filter (fun p => p.name == n)).flatMap (·.platforms),
            tools := e.tools ++ (ps.filter (fun p => p.name == n)).flatMap (·.tools) }
        | none =>
          match ps.filter (fun p => p.name == n) with
          | [] => none
          | q :: qs => some { q with
              platforms := q.platforms ++ qs.flatMap (·.platforms),
              tools := q.tools ++ qs.flatMap (·.tools) } := by
  induction ps with
  | nil =>
    intro acc n
    simp only [List.foldl_nil, List.filter_nil, List.flatMap_nil, List.append_nil]
    cases hfind : acc.find? (fun e => e.name == n) with
    | none => rfl
    | some e => rfl
  | cons p ps ih =>
    intro acc n
    rw [List.foldl_cons, ih (mergeStep acc p) n, find?_name_mergeStep]
    by_cases hn : p.name = n
    · rw [if_pos hn]
      have hfilter : (p :: ps).filter (fun q => q.name == n) = p :: ps.filter (fun q => q.name == n) := by
        rw [List.filter_cons_of_pos (by simp [hn])]
      rw [hfilter]
      cases hfind : acc.find? (fun e => e.name == n) with
      | none => simp
      | some e => simp [List.append_assoc]
    · rw [if_neg hn]
      have hfilter : (p :: ps).filter (fun q => q.name == n) = ps.filter (fun q => q.name == n) := by
        rw [List.filter_cons_of_neg (by simp [hn])]
      rw [hfilter]

theorem foldl_mergeStep_nodup (ps : List PackageEntry) : ∀ acc : List PackageEntry,
    (acc.map (·.name)).Nodup → ((ps.foldl mergeStep acc).map (·.name)).Nodup := by
  induction ps with
  | nil => intro acc h; simpa using h
  | cons p ps ih =>
    intro acc h
    rw [List.foldl_cons]
    apply ih
    rw [mergeStep_map_name]
    split
    · exact h
    · rename_i hany
      have hnot : p.name ∉ acc.map (·.name) := by
        intro hmem
        obtain ⟨e, hemem, hename⟩ := List.mem_map.mp hmem
        exact (List.any_eq_true.mpr ⟨e, hemem, by simp [hename]⟩) |> hany
      have hperm : (acc.map (·.name) ++ [p.name]).Perm (p.name :: acc.map (·.name)) :=
        List.perm_append_singleton _ _
      exact hperm.nodup_iff.mpr (List.nodup_cons.mpr ⟨hnot, h⟩)

/-- C3: merging package indexes yields exactly one entry per distinct
packager name, present iff some source declares it, and that entry's
platforms and tools lists are the concatenation of all sources'
corresponding lists in source order with no deduplication. -/
theorem C3_merge_concatenates_per_name (indexes : List PackageIndex) :
    (((mergePackageIndexes indexes).packages).map (·.name)).Nodup ∧
    (∀ n : String,
      (∃ e ∈ (mergePackageIndexes indexes).packages, e.name = n) ↔
      (∃ p ∈ indexes.flatMap (·.packages), p.name = n)) ∧
    (∀ e ∈ (mergePackageIndexes indexes).packages,
      e.platforms = ((indexes.flatMap (·.packages)).filter
          (fun p => p.name == e.name)).flatMap (·.platforms) ∧
      e.tools = ((indexes.flatMap (·.packages)).filter
          (fun p => p.name == e.name)).flatMap (·.tools)) := by
  have hnodup : (((mergePackageIndexes indexes).packages).map (·.name)).Nodup :=
    foldl_mergeStep_nodup _ [] (by simp)
  refine ⟨hnodup, ?_, ?_⟩
  · intro n
    constructor
    · rintro ⟨e, hmem, rfl⟩
      have hfind := find?_key_eq_of_mem_nodup (·.name) hnodup hmem
      have hfold := foldl_mergeStep_find? (indexes.flatMap (·.packages)) [] e.name
      simp only [List.find?_nil] at hfold
      rw [show (mergePackageIndexes indexes).packages
            = (indexes.flatMap (·.packages)).foldl mergeStep [] from rfl] at hfind
      rw [hfold] at hfind
      cases hfilter : (indexes.flatMap (·.packages)).filter (fun p => p.name == e.name) with
      | nil => rw [hfilter] at hfind; simp at hfind
      | cons q qs =>
        have hq : q ∈ (indexes.flatMap (·.packages)).filter (fun p => p.name == e.name) := by
          rw [hfilter]; exact List.mem_cons_self _ _
        obtain ⟨hqmem, hqname⟩ := List.mem_filter.mp hq
        exact ⟨q, hqmem, by simpa using hqname⟩
    · rintro ⟨p, hmem, rfl⟩
      have hfold := foldl_mergeStep_find? (indexes.flatMap (·.packages)) [] p.name
      simp only [List.find?_nil] at hfold
      cases hfilter : (indexes.flatMap (·.packages)).filter (fun q => q.name == p.name) with
      | nil =>
        exfalso
        have := List.filter_eq_nil_iff.mp hfilter p hmem
        simp at this
      | cons q qs =>
        rw [hfilter] at hfold
        refine ⟨_, List.mem_of_find?_eq_some hfold, ?_⟩
        have hq : q ∈ (indexes.flatMap (·.packages)).filter (fun r => r.name == p.name) := by
          rw [hfilter]; exact List.mem_cons_self _ _
        have := (List.mem_filter.mp hq).2
        simpa using this
  · intro e hmem
    have hfind := find?_key_eq_of_mem_nodup (·.name) hnodup hmem
    have hfold := foldl_mergeStep_find? (indexes.flatMap (·.packages)) [] e.name
    simp only [List.find?_nil] at hfold
    rw [show (mergePackageIndexes indexes).packages
          = (indexes.flatMap (·.packages)).foldl mergeStep [] from rfl] at hfind
    rw [hfold] at hfind
    cases hfilter : (indexes.flatMap (·.packages)).filter (fun p => p.name == e.name) with
    | nil => rw [hfilter] at hfind; simp at hfind
    | cons q qs =>
      rw [hfilter] at hfind
      have he : e = { q with
          platforms := q.platforms ++ qs.flatMap (·.platforms),
          tools := q.tools ++ qs.flatMap (·.tools) } := by
        exact (Option.some.inj hfind).symm
      rw [he]
      simp

/-- C3 witness: merging the two demo sources that share the packager
name yields the single concatenated entry. -/
theorem C3_merge_concatenates_per_name_witness :
    mergeDemoEntry ∈ (mergePackageIndexes [mergeDemoIndexA, mergeDemoIndexB]).packages ∧
    (mergeDemoEntry.platforms
        = (([mergeDemoIndexA, mergeDemoIndexB].flatMap (·.packages)).filter
            (fun p => p.name == mergeDemoEntry.name)).flatMap (·.platforms) ∧
     mergeDemoEntry.tools
        = (([mergeDemoIndexA, mergeDemoIndexB].flatMap (·.packages)).filter
            (fun p => p.name == mergeDemoEntry.name)).flatMap (·.tools)) :=
  ⟨by decide,
   (C3_merge_concatenates_per_name [mergeDemoIndexA, mergeDemoIndexB]).2.2 mergeDemoEntry
     (by decide)⟩

theorem cmpParts_nil_nil : cmpParts [] [] = 0 := rfl

theorem cmpParts_nil_cons (b : Int) (bs : List Int) :
    cmpParts [] (b :: bs) = if 0 < b then -1 else if b < 0 then 1 else cmpParts [] bs := rfl

theorem cmpParts_cons_nil (a : Int) (as : List Int) :
    cmpParts (a :: as) [] = if a < 0 then -1 else if 0 < a then 1 else cmpParts as [] := rfl

theorem cmpParts_cons_cons (a b : Int) (as bs : List Int) :
    cmpParts (a :: as) (b :: bs)
      = if a < b then -1 else if b < a then 1 else cmpParts as bs := rfl

theorem cmpParts_self : ∀ as : List Int, cmpParts as as = 0 := by
  intro as
  induction as with
  | nil => rfl
  | cons a as ih => rw [cmpParts_cons_cons, if_neg (lt_irrefl a), if_neg (lt_irrefl a)]; exact ih

theorem cmpParts_antisymm : ∀ as bs : List Int, cmpParts bs as = -cmpParts as bs := by
  intro as
  induction as with
  | nil =>
    intro bs
    induction bs with
    | nil => rfl
    | cons b bs ihb =>
      rw [cmpParts_cons_nil, cmpParts_nil_cons, ihb]
      split_ifs <;> omega
  | cons a as ih =>
    intro bs
    cases bs with
    | nil =>
      rw [cmpParts_nil_cons, cmpParts_cons_nil, ih []]
      split_ifs <;> omega
    | cons b bs =>
      rw [cmpParts_cons_cons, cmpParts_cons_cons, ih bs]
      split_ifs <;> omega

theorem cmp_step_le {x y r : Int} (h : (if x < y then -1 else if y < x then (1 : Int) else r) ≤ 0) :
    x < y ∨ (x = y ∧ r ≤ 0) := by
  by_cases h1 : x < y
  · exact Or.inl h1
  · by_cases h2 : y < x
    · rw [if_neg h1, if_pos h2] at h; omega
    · rw [if_neg h1, if_neg h2] at h
      exact Or.inr ⟨by omega, h⟩

theorem cmp_step_goal {x y r : Int} (hxy : x < y ∨ (x = y ∧ r ≤ 0)) :
    (if x < y then -1 else if y < x then (1 : Int) else r) ≤ 0 := by
  rcases hxy with h | ⟨rfl, hr⟩
  · rw [if_pos h]; omega
  · rw [if_neg (lt_irrefl x), if_neg (lt_irrefl x)]; exact hr

theorem cmpParts_le_trans_fuel : ∀ (n : Nat) (as bs cs : List Int),
    as.length + bs.length + cs.length ≤ n →
    cmpParts as bs ≤ 0 → cmpParts bs cs ≤ 0 → cmpParts as cs ≤ 0 := by
  intro n
  induction n with
  | zero =>
    intro as bs cs hlen h1 h2
    cases as with
    | cons a as' => simp at hlen
    | nil =>
      cases cs with
      | cons c cs' => simp at hlen
      | nil => exact le_of_eq cmpParts_nil_nil
  | succ n ih =>
    intro as bs cs hlen h1 h2
    cases as with
    | nil =>
      cases bs with
      | nil => exact h2
      | cons b bs' =>
        cases cs with
        | nil => exact le_of_eq cmpParts_nil_nil
        | cons c cs' =>
          rw [cmpParts_nil_cons] at h1
          rw [cmpParts_cons_cons] at h2
          rw [cmpParts_nil_cons]
          have s1 := cmp_step_le h1
          have s2 := cmp_step_le h2
          apply cmp_step_goal
          rcases s1 with hlt1 | ⟨heq1, hr1⟩ <;> rcases s2 with hlt2 | ⟨heq2, hr2⟩
          · exact Or.inl (by omega)
          · exact Or.inl (by omega)
          · exact Or.inl (by omega)
          · refine Or.inr ⟨by omega, ?_⟩
            apply ih [] bs' cs' (by simp at hlen ⊢; omega) hr1 hr2
    | cons a as' =>
      cases bs with
      | nil =>
        cases cs with
        | nil => exact h1
        | cons c cs' =>
          rw [cmpParts_cons_nil] at h1
          rw [cmpParts_nil_cons] at h2
          rw [cmpParts_cons_cons]
          have s1 := cmp_step_le h1
          have s2 := cmp_step_le h2
          apply cmp_step_goal
          rcases s1 with hlt1 | ⟨heq1, hr1⟩ <;> rcases s2 with hlt2 | ⟨heq2, hr2⟩
          · exact Or.inl (by omega)
          · exact Or.inl (by omega)
          · exact Or.inl (by omega)
          · refine Or.inr ⟨by omega, ?_⟩
            apply ih as' [] cs' (by simp at hlen ⊢; omega) hr1 hr2
      | cons b bs' =>
        cases cs with
        | nil =>
          rw [cmpParts_cons_cons] at h1
          rw [cmpParts_cons_nil] at h2
          rw [cmpParts_cons_nil]
          have s1 := cmp_step_le h1
          have s2 := cmp_step_le h2
          apply cmp_step_goal
          rcases s1 with hlt1 | ⟨heq1, hr1⟩ <;> rcases s2 with hlt2 | ⟨heq2, hr2⟩
          · exact Or.inl (by omega)
          · exact Or.inl (by omega)
          · exact Or.inl (by omega)
          · refine Or.inr ⟨by omega, ?_⟩
            apply ih as' bs' [] (by simp at hlen ⊢; omega) hr1 hr2
        | cons c cs' =>
          rw [cmpParts_cons_cons] at h1 h2 ⊢
          have s1 := cmp_step_le h1
          have s2 := cmp_step_le h2
          apply cmp_step_goal
          rcases s1 with hlt1 | ⟨heq1, hr1⟩ <;> rcases s2 with hlt2 | ⟨heq2, hr2⟩
          · exact Or.inl (by omega)
          · exact Or.inl (by omega)
          · exact Or.inl (by omega)
          · refine Or.inr ⟨by omega, ?_⟩
            apply ih as' bs' cs' (by simp at hlen ⊢; omega) hr1 hr2

theorem compareVersions_le_trans {a b c : String}
    (h1 : compareVersions a b ≤ 0) (h2 : compareVersions b c ≤ 0) :
    compareVersions a c ≤ 0 :=
  cmpParts_le_trans_fuel _ _ _ _ (le_refl _) h1 h2

theorem compareVersions_self (a : String) : compareVersions a a = 0 :=
  cmpParts_self _

theorem compareVersions_antisymm (a b : String) :
    compareVersions b a = -compareVersions a b :=
  cmpParts_antisymm _ _

theorem mem_insertVersionDesc (x z : String) :
    ∀ l : List String, z ∈ insertVersionDesc x l ↔ z = x ∨ z ∈ l := by
  intro l
  induction l with
  | nil => simp [insertVersionDesc]
  | cons y ys ih =>
    unfold insertVersionDesc
    split
    · rw [List.mem_cons, ih, List.mem_cons]
      tauto
    · rw [List.mem_cons, List.mem_cons]

theorem pairwise_insertVersionDesc (x : String) :
    ∀ l : List String, l.Pairwise (fun a b => compareVersions b a ≤ 0) →
      (insertVersionDesc x l).Pairwise (fun a b => compareVersions b a ≤ 0) := by
  intro l
  induction l with
  | nil => intro _; simp [insertVersionDesc]
  | cons y ys ih =>
    intro hp
    obtain ⟨hyall, hys⟩ := List.pairwise_cons.mp hp
    unfold insertVersionDesc
    split
    · rename_i hxy
      apply List.pairwise_cons.mpr
      constructor
      · intro z hz
        rcases (mem_insertVersionDesc x z ys).mp hz with rfl | hzys
        · exact hxy
        · exact hyall z hzys
      · exact ih hys
    · rename_i hxy
      push_neg at hxy
      apply List.pairwise_cons.mpr
      constructor
      · intro z hz
        rcases List.mem_cons.mp hz with rfl | hzys
        · rw [compareVersions_antisymm]; omega
        · have hzy := hyall z hzys
          have hyx : compareVersions y x ≤ 0 := by
            rw [compareVersions_antisymm]; omega
          exact compareVersions_le_trans hzy hyx
      · exact hp

theorem sortVersionsDesc_aux_pairwise :
    ∀ (l acc : List String), acc.Pairwise (fun a b => compareVersions b a ≤ 0) →
      (l.foldl (fun acc x => insertVersionDesc x acc) acc).Pairwise
        (fun a b => compareVersions b a ≤ 0) := by
  intro l
  induction l with
  | nil => intro acc h; exact h
  | cons x xs ih =>
    intro acc h
    rw [List.foldl_cons]
    exact ih _ (pairwise_insertVersionDesc x acc h)

theorem sortVersionsDesc_pairwise (l : List String) :
    (sortVersionsDesc l).Pairwise (fun a b => compareVersions b a ≤ 0) :=
  sortVersionsDesc_aux_pairwise l [] (List.Pairwise.nil)

theorem sortVersionsDesc_aux_mem :
    ∀ (l acc : List String) (z : String),
      z ∈ l.foldl (fun acc x => insertVersionDesc x acc) acc ↔ z ∈ acc ∨ z ∈ l := by
  intro l
  induction l with
  | nil => intro acc z; simp
  | cons x xs ih =>
    intro acc z
    rw [List.foldl_cons, ih]
    rw [mem_insertVersionDesc]
    simp only [List.mem_cons]
    tauto

theorem mem_sortVersionsDesc (l : List String) (z : String) :
    z ∈ sortVersionsDesc l ↔ z ∈ l := by
  unfold sortVersionsDesc
  rw [sortVersionsDesc_aux_mem]
  simp

theorem sortVersionsDesc_head_max (l : List String) (v : String) (rest : List String)
    (h : sortVersionsDesc l = v :: rest) :
    ∀ v' ∈ sortVersionsDesc l, compareVersions v' v ≤ 0 := by
  intro v' hv'
  rw [h] at hv'
  rcases List.mem_cons.mp hv' with rfl | hrest
  · rw [compareVersions_self]
  · have hp := sortVersionsDesc_pairwise l
    rw [h] at hp
    exact (List.pairwise_cons.mp hp).1 v' hrest

theorem jsMapGet_nil {β : Type} (k : String) : jsMapGet ([] : List (String × β)) k = none := rfl

theorem jsMapGet_cons {β : Type} (kv : String × β) (tail : List (String × β)) (k : String) :
    jsMapGet (kv :: tail) k = if kv.1 == k then some kv.2 else jsMapGet tail k := by
  unfold jsMapGet
  rw [List.find?]
  cases h : (kv.1 == k) with
  | true => rfl
  | false => rfl

theorem jsMapGet_append {β : Type} (m₁ m₂ : List (String × β)) (k : String) :
    jsMapGet (m₁ ++ m₂) k = (jsMapGet m₁ k).or (jsMapGet m₂ k) := by
  unfold jsMapGet
  rw [List.find?_append]
  cases m₁.find? (fun kv => kv.1 == k) <;> rfl

theorem jsMapGet_map_set {β : Type} (k : String) (v : β) :
    ∀ m : List (String × β), m.any (fun kv => kv.1 == k) = true →
      jsMapGet (m.map (fun kv => if kv.1 == k then (k, v) else kv)) k = some v := by
  intro m
  induction m with
  | nil => intro h; simp at h
  | cons kv tail ih =>
    intro hany
    rw [List.map_cons]
    by_cases h : kv.1 = k
    · have hb : (kv.1 == k) = true := by simp [h]
      simp [jsMapGet_cons, hb]
    · have hb : (kv.1 == k) = false := by simp [h]
      simp only [jsMapGet_cons, hb, Bool.false_eq_true, if_false]
      apply ih
      rcases List.any_eq_true.mp hany with ⟨x, hx, hpx⟩
      rcases List.mem_cons.mp hx with rfl | hxtail
      · exact absurd (by simpa using hpx) h
      · exact List.any_eq_true.mpr ⟨x, hxtail, hpx⟩

theorem jsMapGet_set_self {β : Type} (m : List (String × β)) (k : String) (v : β) :
    jsMapGet (jsMapSet m k v) k = some v := by
  unfold jsMapSet
  split
  · rename_i hany
    exact jsMapGet_map_set k v m hany
  · rename_i hany
    rw [jsMapGet_append]
    have hnone : jsMapGet m k = none := by
      unfold jsMapGet
      rw [Option.map_eq_none']
      rw [List.find?_eq_none]
      intro x hx hpx
      exact hany (List.any_eq_true.mpr ⟨x, hx, hpx⟩)
    rw [hnone]
    simp [jsMapGet_cons]

theorem jsMapGet_map_keyfix {β : Type} (k k' : String) (v : β) (hne : k' ≠ k) :
    ∀ m : List (String × β),
      jsMapGet (m.map (fun kv => if kv.1 == k then (k, v) else kv)) k' = jsMapGet m k' := by
  intro m
  induction m with
  | nil => rfl
  | cons kv tail ih =>
    rw [List.map_cons]
    have hkk : (k == k') = false := by
      simp
      exact fun hq => hne hq.symm
    by_cases h : kv.1 = k
    · have hb : (kv.1 == k) = true := by simp [h]
      have hb' : (kv.1 == k') = false := by
        simp [h]
        exact fun hq => hne hq.symm
      simp only [jsMapGet_cons, hb, if_true, hkk, hb', Bool.false_eq_true, if_false]
      exact ih
    · have hb : (kv.1 == k) = false := by simp [h]
      simp only [jsMapGet_cons, hb, Bool.false_eq_true, if_false]
      cases h' : (kv.1 == k') with
      | true => rfl
      | false => simp only [Bool.false_eq_true, if_false]; exact ih

theorem jsMapGet_set_other {β : Type} (m : List (String × β)) (k k' : String) (v : β)
    (hne : k' ≠ k) : jsMapGet (jsMapSet m k v) k' = jsMapGet m k' := by
  unfold jsMapSet
  split
  · exact jsMapGet_map_keyfix k k' v hne m
  · rw [jsMapGet_append]
    have hkk : (k == k') = false := by
      simp
      exact fun hq => hne hq.symm
    simp only [jsMapGet_cons, hkk, Bool.false_eq_true, if_false, jsMapGet_nil]
    rw [Option.or_none]

theorem count_append_char {i w a b : List Char} (ch : Char)
    (ha : ch ∉ a) (hb : ch ∉ b) (h : i ++ ch :: w = a ++ ch :: b) : ch ∉ i := by
  intro hch
  have hcount : List.count ch (i ++ ch :: w) = List.count ch (a ++ ch :: b) := by rw [h]
  rw [List.count_append, List.count_append, List.count_cons_self, List.count_cons_self] at hcount
  have hca : List.count ch a = 0 := List.count_eq_zero.mpr ha
  have hcb : List.count ch b = 0 := List.count_eq_zero.mpr hb
  have hci : 0 < List.count ch i := List.count_pos_iff.mpr hch
  omega

theorem append_char_eq : ∀ {a c b d : List Char} (ch : Char),
    ch ∉ a → ch ∉ c → a ++ ch :: b = c ++ ch :: d → a = c ∧ b = d := by
  intro a
  induction a with
  | nil =>
    intro c b d ch ha hc h
    cases c with
    | nil =>
      simp only [List.nil_append] at h
      exact ⟨rfl, (List.cons.injEq _ _ _ _ ▸ h).2⟩
    | cons c₀ cs =>
      simp only [List.nil_append, List.cons_append] at h
      obtain ⟨rfl, -⟩ := List.cons.inj h
      exact absurd (List.mem_cons_self _ _) hc
  | cons a₀ as ih =>
    intro c b d ch ha hc h
    cases c with
    | nil =>
      simp only [List.cons_append, List.nil_append] at h
      obtain ⟨rfl, -⟩ := List.cons.inj h
      exact absurd (List.mem_cons_self _ _) ha
    | cons c₀ cs =>
      simp only [List.cons_append] at h
      obtain ⟨rfl, htail⟩ := List.cons.inj h
      have ha' : ch ∉ as := fun hm => ha (List.mem_cons_of_mem _ hm)
      have hc' : ch ∉ cs := fun hm => hc (List.mem_cons_of_mem _ hm)
      obtain ⟨heq, heq2⟩ := ih ch ha' hc' htail
      exact ⟨by rw [heq], heq2⟩

theorem joinKey_data (id v : String) :
    (joinKey id v).data = id.data ++ '@' :: v.data := by
  have h1 : (joinKey id v).data = id.data ++ "@".data ++ v.data := by
    rw [joinKey, String.data_append, String.data_append]
  rw [h1]
  have h2 : "@".data = ['@'] := rfl
  rw [h2, List.append_assoc, List.singleton_append]

theorem joinKey_inj {id₁ v₁ id₂ v₂ : String} (h1 : '@' ∉ id₁.data) (h2 : '@' ∉ id₂.data)
    (h : joinKey id₁ v₁ = joinKey id₂ v₂) : id₁ = id₂ ∧ v₁ = v₂ := by
  have hdata : id₁.data ++ '@' :: v₁.data = id₂.data ++ '@' :: v₂.data := by
    have hd := congrArg String.data h
    rwa [joinKey_data, joinKey_data] at hd
  obtain ⟨hid, hv⟩ := append_char_eq '@' h1 h2 hdata
  exact ⟨String.ext hid, String.ext hv⟩

theorem lookupState_eq_jsMapGet (s : DiffState) (k : String) :
    lookupState s k = jsMapGet s k := rfl

theorem stateHasKey_eq_isSome (s : DiffState) (k : String) :
    stateHasKey s k = (jsMapGet s k).isSome := by
  unfold stateHasKey jsMapGet
  cases s.find? (fun kv => kv.1 == k) <;> rfl

theorem fetchLatest_foldl_other (idx : PackageIndex) :
    ∀ (pkgs : List ConfigPackage) (m : VersionMap) (k : String),
      (∀ p ∈ pkgs, p.id ≠ k) →
      jsMapGet (pkgs.foldl (fetchLatestStep idx) m) k = jsMapGet m k := by
  intro pkgs
  induction pkgs with
  | nil => intro m k _; rfl
  | cons q qs ih =>
    intro m k hne
    rw [List.foldl_cons]
    rw [ih _ k (fun p hp => hne p (List.mem_cons_of_mem _ hp))]
    simp only [fetchLatestStep]
    cases hq : (getAvailableVersions idx (parseCore q.core).1 (parseCore q.core).2).head? with
    | none => rfl
    | some v =>
      exact jsMapGet_set_other m q.id k v (fun hk => hne q (List.mem_cons_self _ _) hk.symm)

theorem fetchLatest_foldl_main (idx : PackageIndex) :
    ∀ (pkgs : List ConfigPackage) (m : VersionMap) (pkg : ConfigPackage),
      pkg ∈ pkgs → (pkgs.map (·.id)).Nodup →
      jsMapGet (pkgs.foldl (fetchLatestStep idx) m) pkg.id
        = match (getAvailableVersions idx (parseCore pkg.core).1 (parseCore pkg.core).2).head? with
          | some v => some v
          | none => jsMapGet m pkg.id := by
  intro pkgs
  induction pkgs with
  | nil => intro m pkg hmem; simp at hmem
  | cons q qs ih =>
    intro m pkg hmem hnodup
    rw [List.map_cons, List.nodup_cons] at hnodup
    obtain ⟨hqnot, hqs⟩ := hnodup
    rcases List.mem_cons.mp hmem with rfl | hmem'
    · rw [List.foldl_cons]
      have hother : ∀ p ∈ qs, p.id ≠ pkg.id := by
        intro p hp hpe
        exact hqnot (hpe ▸ List.mem_map_of_mem (·.id) hp)
      rw [fetchLatest_foldl_other idx qs _ pkg.id hother]
      simp only [fetchLatestStep]
      cases hq : (getAvailableVersions idx (parseCore pkg.core).1 (parseCore pkg.core).2).head? with
      | none => rfl
      | some v => exact jsMapGet_set_self m pkg.id v
    · rw [List.foldl_cons]
      rw [ih _ pkg hmem' hqs]
      have hne : pkg.id ≠ q.id := by
        intro he
        exact hqnot (he ▸ List.mem_map_of_mem (·.id) hmem')
      have hstep : jsMapGet (fetchLatestStep idx m q) pkg.id = jsMapGet m pkg.id := by
        simp only [fetchLatestStep]
        cases hq : (getAvailableVersions idx (parseCore q.core).1 (parseCore q.core).2).head? with
        | none => rfl
        | some v => exact jsMapGet_set_other m q.id pkg.id v hne
      rw [hstep]

theorem buildExpected_foldl_lookup (latest : VersionMap) :
    ∀ (pkgs : List ConfigPackage) (s : DiffState) (k : String),
      jsMapGet (pkgs.foldl (buildExpectedStep latest) s) k
        = if pkgs.any (fun pkg =>
              match jsMapGet latest pkg.id with
              | some v => joinKey pkg.id v == k
              | none => false) then some (jsSetOfList OPENBLOCK_PLATFORMS)
          else jsMapGet s k := by
  intro pkgs
  induction pkgs with
  | nil => intro s k; simp
  | cons q qs ih =>
    intro s k
    rw [List.foldl_cons, ih, List.any_cons]
    cases hq : jsMapGet latest q.id with
    | none =>
      have hstep : buildExpectedStep latest s q = s := by
        unfold buildExpectedStep
        rw [hq]
      rw [hstep]
      simp only [hq]
      rw [Bool.false_or]
    | some v =>
      have hstep : buildExpectedStep latest s q
          = jsMapSet s (joinKey q.id v) (jsSetOfList OPENBLOCK_PLATFORMS) := by
        unfold buildExpectedStep
        rw [hq]
      rw [hstep]
      simp only [hq]
      by_cases hk : k = joinKey q.id v
      · have hcond : (joinKey q.id v == k) = true := by simp [hk]
        simp only [hcond, Bool.true_or]
        by_cases hqs : (qs.any (fun pkg =>
            match jsMapGet latest pkg.id with
            | some v => joinKey pkg.id v == k
            | none => false)) = true
        · rw [if_pos hqs]
          simp
        · rw [if_neg hqs]
          simp only [if_true]
          rw [hk]
          exact jsMapGet_set_self s _ _
      · have hcond : (joinKey q.id v == k) = false := by
          simp
          exact fun he => hk he.symm
        simp only [hcond, Bool.false_or]
        by_cases hqs : (qs.any (fun pkg =>
            match jsMapGet latest pkg.id with
            | some v => joinKey pkg.id v == k
            | none => false)) = true
        · rw [if_pos hqs, if_pos hqs]
        · rw [if_neg hqs, if_neg hqs]
          exact jsMapGet_set_other s _ k _ hk

/-- C6: for every configured package (distinct, `@`-free ids) whose
packager and architecture have at least one version in the merged index,
the expected state maps the package's id at a single greatest version
(under compareVersions: split on `.`, integer components, missing
components zero) to the full canonical platform set, and no other
version of that id appears. -/
theorem C6_expected_latest_version (idx : PackageIndex) (pkgs : List ConfigPackage)
    (hnodup : (pkgs.map (·.id)).Nodup)
    (hfree : ∀ p ∈ pkgs, '@' ∉ p.id.data)
    (pkg : ConfigPackage) (hmem : pkg ∈ pkgs)
    (hver : getAvailableVersions idx (parseCore pkg.core).1 (parseCore pkg.core).2 ≠ []) :
    ∃ v, v ∈ getAvailableVersions idx (parseCore pkg.core).1 (parseCore pkg.core).2
      ∧ (∀ v' ∈ getAvailableVersions idx (parseCore pkg.core).1 (parseCore pkg.core).2,
          compareVersions v' v ≤ 0)
      ∧ lookupState (buildExpectedState pkgs (fetchLatestVersions pkgs idx))
          (joinKey pkg.id v) = some (jsSetOfList OPENBLOCK_PLATFORMS)
      ∧ (∀ v', stateHasKey (buildExpectedState pkgs (fetchLatestVersions pkgs idx))
          (joinKey pkg.id v') = true → v' = v)
      ∧ jsSetOfList OPENBLOCK_PLATFORMS = OPENBLOCK_PLATFORMS := by
  cases hvs : getAvailableVersions idx (parseCore pkg.core).1 (parseCore pkg.core).2 with
  | nil => exact absurd hvs hver
  | cons v rest =>
    have hlatest : jsMapGet (fetchLatestVersions pkgs idx) pkg.id = some v := by
      unfold fetchLatestVersions
      rw [fetchLatest_foldl_main idx pkgs [] pkg hmem hnodup, hvs]
      rfl
    refine ⟨v, by exact List.mem_cons_self _ _, ?_, ?_, ?_, by decide⟩
    · intro v' hv'
      have hmax : ∀ w ∈ getAvailableVersions idx (parseCore pkg.core).1
          (parseCore pkg.core).2, compareVersions w v ≤ 0 := by
        unfold getAvailableVersions at hvs ⊢
        cases hfp : idx.packages.find? (fun p => strToLower p.name == strToLower
            (parseCore pkg.core).1) with
        | none => rw [hfp] at hvs; simp at hvs
        | some pk =>
          rw [hfp] at hvs
          exact sortVersionsDesc_head_max _ v rest hvs
      rw [← hvs] at hv'
      exact hmax v' hv'
    · rw [lookupState_eq_jsMapGet]
      unfold buildExpectedState
      rw [buildExpected_foldl_lookup]
      rw [if_pos]
      apply List.any_eq_true.mpr
      refine ⟨pkg, hmem, ?_⟩
      rw [hlatest]
      simp
    · intro v' hkey
      rw [stateHasKey_eq_isSome] at hkey
      unfold buildExpectedState at hkey
      rw [buildExpected_foldl_lookup] at hkey
      split at hkey
      · rename_i hcond
        obtain ⟨p, hp, hpred⟩ := List.any_eq_true.mp hcond
        cases hw : jsMapGet (fetchLatestVersions pkgs idx) p.id with
        | none => rw [hw] at hpred; simp at hpred
        | some w =>
          rw [hw] at hpred
          have hjoin : joinKey p.id w = joinKey pkg.id v' := eq_of_beq hpred
          obtain ⟨hpid, hwv⟩ := joinKey_inj (hfree p hp) (hfree pkg hmem) hjoin
          have hpp : p = pkg := List.inj_on_of_nodup_map hnodup hp hmem hpid
          rw [hpp, hlatest] at hw
          rw [← hwv, Option.some.inj hw]
      · simp [jsMapGet_nil] at hkey

/-- C6 witness: the expected state built over the demo catalog with the
single configured package pins it at version 1.8.6 across the full
platform set. -/
theorem C6_expected_latest_version_witness :
    ∃ v, v ∈ getAvailableVersions fallbackDemoIndex (parseCore versionDemoConfig.core).1
        (parseCore versionDemoConfig.core).2
      ∧ (∀ v' ∈ getAvailableVersions fallbackDemoIndex (parseCore versionDemoConfig.core).1
          (parseCore versionDemoConfig.core).2, compareVersions v' v ≤ 0)
      ∧ lookupState (buildExpectedState [versionDemoConfig]
          (fetchLatestVersions [versionDemoConfig] fallbackDemoIndex))
          (joinKey versionDemoConfig.id v) = some (jsSetOfList OPENBLOCK_PLATFORMS)
      ∧ (∀ v', stateHasKey (buildExpectedState [versionDemoConfig]
          (fetchLatestVersions [versionDemoConfig] fallbackDemoIndex))
          (joinKey versionDemoConfig.id v') = true → v' = v)
      ∧ jsSetOfList OPENBLOCK_PLATFORMS = OPENBLOCK_PLATFORMS :=
  C6_expected_latest_version fallbackDemoIndex [versionDemoConfig] (by decide)
    (by decide) versionDemoConfig (by decide) (by decide)

instance keySplitsDecidable (k : String) : Decidable (keySplits k) := by
  unfold keySplits
  infer_instance

theorem joinKey_inj_left {id₁ v₁ id₂ v₂ : String} (h1 : '@' ∉ id₁.data) (hv1 : '@' ∉ v₁.data)
    (h : joinKey id₁ v₁ = joinKey id₂ v₂) : id₁ = id₂ ∧ v₁ = v₂ := by
  have hdata : id₁.data ++ '@' :: v₁.data = id₂.data ++ '@' :: v₂.data := by
    have hd := congrArg String.data h
    rwa [joinKey_data, joinKey_data] at hd
  have hc : '@' ∉ id₂.data := by
    intro hmem
    have hcount := congrArg (List.count '@') hdata
    rw [List.count_append, List.count_append, List.count_cons_self,
      List.count_cons_self] at hcount
    have ha : List.count '@' id₁.data = 0 := List.count_eq_zero.mpr h1
    have hb : List.count '@' v₁.data = 0 := List.count_eq_zero.mpr hv1
    have hpos : 0 < List.count '@' id₂.data := List.count_pos_iff.mpr hmem
    omega
  obtain ⟨hid, hv⟩ := append_char_eq '@' h1 hc hdata
  exact ⟨String.ext hid, String.ext hv⟩

theorem keySplits_join_eq {k : String} (hs : keySplits k) {id v : String}
    (h : k = joinKey id v) : keyId k = id ∧ keyVersion k = v := by
  obtain ⟨hjoin, hfid, hfv⟩ := hs
  exact joinKey_inj_left hfid hfv (by rw [hjoin, h])

theorem contains_true_iff {l : List String} {a : String} : l.contains a = true ↔ a ∈ l :=
  List.elem_iff

theorem jsMapGet_of_mem_nodup {s : DiffState} (hN : (s.map (·.1)).Nodup)
    {kv : String × List String} (hmem : kv ∈ s) : jsMapGet s kv.1 = some kv.2 := by
  unfold jsMapGet
  rw [find?_key_eq_of_mem_nodup (·.1) hN hmem]
  rfl

theorem jsMapGet_eq_some {β : Type} {s : List (String × β)} {k : String} {v : β}
    (h : jsMapGet s k = some v) : ∃ kv ∈ s, kv.1 = k ∧ kv.2 = v := by
  unfold jsMapGet at h
  obtain ⟨kv, hfind, hv⟩ := Option.map_eq_some'.mp h
  exact ⟨kv, List.mem_of_find?_eq_some hfind, by simpa using List.find?_some hfind, hv⟩

theorem jsMapGet_eq_none_iff {β : Type} {s : List (String × β)} {k : String} :
    jsMapGet s k = none ↔ ∀ kv ∈ s, kv.1 ≠ k := by
  unfold jsMapGet
  rw [Option.map_eq_none', List.find?_eq_none]
  constructor
  · intro h kv hkv he
    exact h kv hkv (by simp [he])
  · intro h kv hkv hbeq
    exact h kv hkv (by simpa using hbeq)

theorem mem_calcToAdd_iff (E C : DiffState) (it : Item) :
    it ∈ calcToAdd E C ↔ ∃ kv ∈ E, it.id = keyId kv.1 ∧ it.version = keyVersion kv.1 ∧
      it.platform ∈ kv.2 ∧ it.platform ∉ (lookupState C kv.1).getD [] := by
  unfold calcToAdd
  rw [List.mem_flatMap]
  constructor
  · rintro ⟨kv, hkv, hit⟩
    rw [List.mem_map] at hit
    obtain ⟨p, hp, rfl⟩ := hit
    rw [List.mem_filter] at hp
    refine ⟨kv, hkv, rfl, rfl, hp.1, ?_⟩
    intro hmem
    have hcont : (((lookupState C kv.1).getD []).contains p) = true :=
      contains_true_iff.mpr hmem
    have := hp.2
    rw [hcont] at this
    simp at this
  · rintro ⟨kv, hkv, hid, hv, hp, hnp⟩
    refine ⟨kv, hkv, ?_⟩
    rw [List.mem_map]
    refine ⟨it.platform, ?_, ?_⟩
    · rw [List.mem_filter]
      refine ⟨hp, ?_⟩
      have hcont : (((lookupState C kv.1).getD []).contains it.platform) = false := by
        cases hc : (((lookupState C kv.1).getD []).contains it.platform) with
        | true => exact absurd (contains_true_iff.mp hc) hnp
        | false => rfl
      rw [hcont]
      rfl
    · obtain ⟨iid, iv, ip⟩ := it
      simp only at hid hv
      rw [hid, hv]

theorem mem_calcToDelete_iff (E C : DiffState) (it : Item) :
    it ∈ calcToDelete E C ↔ ∃ kv ∈ C, it.id = keyId kv.1 ∧ it.version = keyVersion kv.1 ∧
      it.platform ∈ kv.2 ∧
      (E.any (fun ekv => keyId ekv.1 == keyId kv.1)) = true ∧ stateHasKey E kv.1 = false := by
  unfold calcToDelete
  rw [List.mem_flatMap]
  constructor
  · rintro ⟨kv, hkv, hit⟩
    split at hit
    · rename_i hcond
      rw [List.mem_map] at hit
      obtain ⟨p, hp, rfl⟩ := hit
      rw [Bool.and_eq_true] at hcond
      refine ⟨kv, hkv, rfl, rfl, hp, hcond.1, ?_⟩
      have := hcond.2
      cases hsk : stateHasKey E kv.1 with
      | true => rw [hsk] at this; simp at this
      | false => rfl
    · simp at hit
  · rintro ⟨kv, hkv, hid, hv, hp, hany, hkey⟩
    refine ⟨kv, hkv, ?_⟩
    rw [if_pos (by rw [Bool.and_eq_true, hany, hkey]; exact ⟨rfl, rfl⟩)]
    rw [List.mem_map]
    refine ⟨it.platform, hp, ?_⟩
    obtain ⟨iid, iv, ip⟩ := it
    simp only at hid hv
    rw [hid, hv]

/-- C4: calculateDiff's toAdd holds exactly the triples whose id@version
is an expected key and whose platform is in the expected set but not the
current set of that key; toDelete holds exactly the triples of current
keys with a managed id whose exact key is absent from expected, with
every platform of that key queued; unmanaged current keys contribute
nothing. -/
theorem C4_diff_membership (expected current : DiffState)
    (hE : (expected.map (·.1)).Nodup) (hC : (current.map (·.1)).Nodup)
    (hkE : ∀ kv ∈ expected, keySplits kv.1) (hkC : ∀ kv ∈ current, keySplits kv.1) :
    (∀ it : Item, it ∈ (calculateDiff expected current).1 ↔
      ∃ ps, lookupState expected (joinKey it.id it.version) = some ps ∧
        it.platform ∈ ps ∧
        it.platform ∉ (lookupState current (joinKey it.id it.version)).getD [])
    ∧ (∀ it : Item, it ∈ (calculateDiff expected current).2 ↔
      ∃ ps, lookupState current (joinKey it.id it.version) = some ps ∧
        it.platform ∈ ps ∧
        (∃ ekv ∈ expected, keyId ekv.1 = it.id) ∧
        stateHasKey expected (joinKey it.id it.version) = false) := by
  constructor
  · intro it
    rw [show (calculateDiff expected current).1 = calcToAdd expected current from rfl]
    rw [mem_calcToAdd_iff]
    constructor
    · rintro ⟨kv, hkv, hid, hv, hp, hnp⟩
      have hjoin : joinKey it.id it.version = kv.1 := by
        rw [hid, hv]
        exact (hkE kv hkv).1
      rw [hjoin]
      exact ⟨kv.2, jsMapGet_of_mem_nodup hE hkv, hp, hnp⟩
    · rintro ⟨ps, hlook, hp, hnp⟩
      obtain ⟨kv, hkv, hk1, hk2⟩ := jsMapGet_eq_some hlook
      obtain ⟨hid, hv⟩ := keySplits_join_eq (hkE kv hkv) hk1
      refine ⟨kv, hkv, hid.symm, hv.symm, by rw [hk2]; exact hp, ?_⟩
      rw [hk1]
      exact hnp
  · intro it
    rw [show (calculateDiff expected current).2 = calcToDelete expected current from rfl]
    rw [mem_calcToDelete_iff]
    constructor
    · rintro ⟨kv, hkv, hid, hv, hp, hany, hkey⟩
      have hjoin : joinKey it.id it.version = kv.1 := by
        rw [hid, hv]
        exact (hkC kv hkv).1
      rw [hjoin]
      refine ⟨kv.2, jsMapGet_of_mem_nodup hC hkv, hp, ?_, hkey⟩
      obtain ⟨ekv, hekv, hbeq⟩ := List.any_eq_true.mp hany
      exact ⟨ekv, hekv, by rw [eq_of_beq hbeq, ← hid]⟩
    · rintro ⟨ps, hlook, hp, ⟨ekv, hekv, hekid⟩, hkey⟩
      obtain ⟨kv, hkv, hk1, hk2⟩ := jsMapGet_eq_some hlook
      obtain ⟨hid, hv⟩ := keySplits_join_eq (hkC kv hkv) hk1
      refine ⟨kv, hkv, hid.symm, hv.symm, by rw [hk2]; exact hp, ?_, by rw [hk1]; exact hkey⟩
      apply List.any_eq_true.mpr
      refine ⟨ekv, hekv, ?_⟩
      rw [hekid, hid]
      simp

/-- C4 witness: the spec's worked example x@2.0.0 against current
x@1.0.0 and unmanaged y, queried at the triple x@2.0.0 on win32-x64. -/
theorem C4_diff_membership_witness :
    (⟨"x", "2.0.0", "win32-x64"⟩ : Item) ∈ (calculateDiff diffDemoExpected diffDemoCurrent).1 ↔
      ∃ ps, lookupState diffDemoExpected (joinKey "x" "2.0.0") = some ps ∧
        "win32-x64" ∈ ps ∧
        "win32-x64" ∉ (lookupState diffDemoCurrent (joinKey "x" "2.0.0")).getD [] :=
  (C4_diff_membership diffDemoExpected diffDemoCurrent (by decide) (by decide)
    (by decide) (by decide)).1 ⟨"x", "2.0.0", "win32-x64"⟩

theorem beq_comm_str (a b : String) : (a == b) = (b == a) := by
  cases h : a == b with
  | true => rw [eq_of_beq h]; simp
  | false =>
    cases h2 : b == a with
    | true => exact absurd h (by rw [eq_of_beq h2]; simp)
    | false => rfl

theorem jsMapGet_mapValues (g : String → List String → List String) :
    ∀ (s : DiffState) (k : String),
      jsMapGet (s.map (fun kv => (kv.1, g kv.1 kv.2))) k = (jsMapGet s k).map (g k) := by
  intro s k
  induction s with
  | nil => rfl
  | cons kv tail ih =>
    simp only [List.map_cons, jsMapGet_cons]
    cases hb : (kv.1 == k) with
    | true => simp [eq_of_beq hb]
    | false =>
      simp only [Bool.false_eq_true, if_false]
      exact ih

theorem removePlatform_eq_mapValues (s : DiffState) (it : Item) :
    removePlatform s it = s.map (fun kv =>
      (kv.1, if kv.1 == joinKey it.id it.version
             then kv.2.filter (fun p => p ≠ it.platform) else kv.2)) := by
  unfold removePlatform
  apply List.map_congr_left
  intro kv _
  split <;> rfl

theorem removePlatform_lookup (s : DiffState) (it : Item) (k : String) :
    jsMapGet (removePlatform s it) k
      = (jsMapGet s k).map (fun v =>
          if k == joinKey it.id it.version then v.filter (fun p => p ≠ it.platform) else v) := by
  rw [removePlatform_eq_mapValues]
  exact jsMapGet_mapValues
    (fun k1 v => if k1 == joinKey it.id it.version then v.filter (fun p => p ≠ it.platform) else v)
    s k

theorem keys_removePlatform (s : DiffState) (it : Item) :
    (removePlatform s it).map (·.1) = s.map (·.1) := by
  unfold removePlatform
  rw [List.map_map]
  apply List.map_congr_left
  intro kv _
  simp only [Function.comp]
  split <;> rfl

theorem keys_foldl_removePlatform : ∀ (items : List Item) (s : DiffState),
    (items.foldl removePlatform s).map (·.1) = s.map (·.1) := by
  intro items
  induction items with
  | nil => intro s; rfl
  | cons it items ih =>
    intro s
    rw [List.foldl_cons, ih (removePlatform s it), keys_removePlatform]

theorem foldl_removePlatform_lookup : ∀ (items : List Item) (s : DiffState) (k : String),
    jsMapGet (items.foldl removePlatform s) k
      = (jsMapGet s k).map (fun v => v.filter (fun p =>
          !(items.any (fun it =>
            (k == joinKey it.id it.version) && (p == it.platform))))) := by
  intro items
  induction items with
  | nil =>
    intro s k
    rw [List.foldl_nil]
    cases h : jsMapGet s k with
    | none => rfl
    | some v =>
      rw [Option.map_some']
      congr 1
      rw [List.filter_eq_self.mpr]
      intro a _
      simp
  | cons it items ih =>
    intro s k
    rw [List.foldl_cons, ih, removePlatform_lookup, Option.map_map]
    cases h : jsMapGet s k with
    | none => rfl
    | some v =>
      simp only [Option.map_some', Function.comp]
      congr 1
      cases hj : (k == joinKey it.id it.version) with
      | true =>
        simp only [hj, if_true]
        rw [List.filter_filter]
        apply List.filter_congr
        intro a _
        by_cases hap : a = it.platform
        · simp [hap, hj]
        · simp [hap, hj]
      | false =>
        simp only [hj, Bool.false_eq_true, if_false]
        apply List.filter_congr
        intro a _
        simp [hj]

theorem dropEmptyKeys_lookup : ∀ (s : DiffState), ((s.map (·.1)).Nodup) → ∀ k : String,
    jsMapGet (dropEmptyKeys s) k
      = match jsMapGet s k with
        | some [] => none
        | x => x := by
  intro s
  induction s with
  | nil => intro _ k; rfl
  | cons kv tail ih =>
    intro hN k
    rw [List.map_cons, List.nodup_cons] at hN
    obtain ⟨hknot, htail⟩ := hN
    unfold dropEmptyKeys
    rw [List.filter_cons]
    cases hv : kv.2 with
    | nil =>
      rw [if_neg (by simp)]
      rw [show (List.filter (fun kv => !kv.2.isEmpty) tail) = dropEmptyKeys tail from rfl]
      rw [ih htail k, jsMapGet_cons, hv]
      cases hb : (kv.1 == k) with
      | true =>
        have hnone : jsMapGet tail k = none := by
          apply jsMapGet_eq_none_iff.mpr
          intro kv' hkv' he'
          apply hknot
          rw [eq_of_beq hb, ← he']
          exact List.mem_map_of_mem (·.1) hkv'
        rw [hnone]
        simp
      | false => simp
    | cons a as =>
      rw [if_pos (by simp)]
      rw [jsMapGet_cons, jsMapGet_cons, hv]
      cases hb : (kv.1 == k) with
      | true => simp
      | false =>
        simp only [Bool.false_eq_true, if_false]
        exact ih htail k

theorem any_key_isSome {β : Type} {s : List (String × β)} {k : String}
    (h : s.any (fun kv => kv.1 == k) = true) : (jsMapGet s k).isSome = true := by
  obtain ⟨kv, hm, hp⟩ := List.any_eq_true.mp h
  unfold jsMapGet
  cases hf : s.find? (fun kv => kv.1 == k) with
  | none => exact absurd hp (by simpa using List.find?_eq_none.mp hf kv hm)
  | some kv' => rfl

theorem addPlatform_lookup_update (s : DiffState) (it : Item) (k : String)
    (hany : s.any (fun kv => kv.1 == joinKey it.id it.version) = true) :
    jsMapGet (addPlatform s it) k
      = (jsMapGet s k).map
          (fun v => if k == joinKey it.id it.version then v ++ [it.platform] else v) := by
  unfold addPlatform
  rw [if_pos hany]
  have hfun : (fun kv : String × List String =>
        if kv.1 == joinKey it.id it.version then (kv.1, kv.2 ++ [it.platform]) else kv)
      = (fun kv : String × List String =>
        (kv.1, if kv.1 == joinKey it.id it.version then kv.2 ++ [it.platform] else kv.2)) := by
    funext kv
    split <;> rfl
  rw [hfun]
  exact jsMapGet_mapValues
    (fun k1 v => if k1 == joinKey it.id it.version then v ++ [it.platform] else v) s k

theorem addPlatform_lookup_append (s : DiffState) (it : Item) (k : String)
    (hany : s.any (fun kv => kv.1 == joinKey it.id it.version) = false) :
    jsMapGet (addPlatform s it) k
      = if joinKey it.id it.version == k then (jsMapGet s k).or (some [it.platform])
        else jsMapGet s k := by
  unfold addPlatform
  rw [if_neg (by simp [hany]), jsMapGet_append, jsMapGet_cons, jsMapGet_nil]
  cases hj : (joinKey it.id it.version == k) with
  | true => rfl
  | false =>
    simp only [Bool.false_eq_true, if_false]
    rw [Option.or_none]

theorem keys_addPlatform (s : DiffState) (it : Item) :
    (addPlatform s it).map (·.1)
      = if s.any (fun kv => kv.1 == joinKey it.id it.version) then s.map (·.1)
        else s.map (·.1) ++ [joinKey it.id it.version] := by
  unfold addPlatform
  split
  · rw [List.map_map]
    apply List.map_congr_left
    intro kv _
    simp only [Function.comp]
    split <;> rfl
  · rw [List.map_append]
    rfl

theorem mem_foldl_addPlatform : ∀ (items : List Item) (s : DiffState)
    (kv : String × List String), kv ∈ items.foldl addPlatform s →
    kv.1 ∈ s.map (·.1) ∨ ∃ it ∈ items, joinKey it.id it.version = kv.1 := by
  intro items
  induction items with
  | nil =>
    intro s kv h
    exact Or.inl (List.mem_map_of_mem (·.1) h)
  | cons it items ih =>
    intro s kv h
    rcases ih (addPlatform s it) kv h with hkey | ⟨it', hit', hj⟩
    · rw [keys_addPlatform] at hkey
      split at hkey
      · exact Or.inl hkey
      · rcases List.mem_append.mp hkey with hl | hr
        · exact Or.inl hl
        · have hk1 : kv.1 = joinKey it.id it.version := by simpa using hr
          exact Or.inr ⟨it, List.mem_cons_self it items, hk1.symm⟩
    · exact Or.inr ⟨it', List.mem_cons_of_mem _ hit', hj⟩

theorem foldl_addPlatform_lookup : ∀ (items : List Item) (s : DiffState) (k : String),
    jsMapGet (items.foldl addPlatform s) k
      = match jsMapGet s k with
        | some l =>
          some (l ++ (items.filter
            (fun it => joinKey it.id it.version == k)).map (·.platform))
        | none =>
          match (items.filter
              (fun it => joinKey it.id it.version == k)).map (·.platform) with
          | [] => none
          | ps => some ps := by
  intro items
  induction items with
  | nil =>
    intro s k
    rw [List.foldl_nil]
    cases h : jsMapGet s k with
    | none => rfl
    | some l => simp
  | cons it items ih =>
    intro s k
    rw [List.foldl_cons, ih, List.filter_cons]
    cases hany : s.any (fun kv => kv.1 == joinKey it.id it.version) with
    | true =>
      rw [addPlatform_lookup_update s it k hany]
      cases hj : (joinKey it.id it.version == k) with
      | true =>
        have hj' : (k == joinKey it.id it.version) = true := by
          rw [beq_comm_str]; exact hj
        rw [if_pos rfl]
        cases hs : jsMapGet s k with
        | some l =>
          simp only [Option.map_some', hj', if_true, List.map_cons]
          simp [List.append_assoc]
        | none =>
          exact absurd (any_key_isSome hany)
            (by rw [← eq_of_beq hj] at hs; rw [hs]; simp)
      | false =>
        have hj' : (k == joinKey it.id it.version) = false := by
          rw [beq_comm_str]; exact hj
        simp only [Bool.false_eq_true, if_false]
        cases hs : jsMapGet s k with
        | some l => simp [hj']
        | none => rfl
    | false =>
      rw [addPlatform_lookup_append s it k hany]
      cases hj : (joinKey it.id it.version == k) with
      | true =>
        rw [if_pos rfl]
        have hnone : jsMapGet s k = none := by
          cases hs : jsMapGet s k with
          | none => rfl
          | some l =>
            obtain ⟨kv, hkv, hk1, _⟩ := jsMapGet_eq_some hs
            have : s.any (fun kv => kv.1 == joinKey it.id it.version) = true :=
              List.any_eq_true.mpr ⟨kv, hkv, by rw [hk1, eq_of_beq hj]; simp⟩
            rw [this] at hany
            exact absurd hany (by simp)
        rw [hnone]
        simp
      | false =>
        simp only [Bool.false_eq_true, if_false]

theorem stateHasKey_of_mem {s : DiffState} {kv : String × List String} (h : kv ∈ s) :
    stateHasKey s kv.1 = true := by
  unfold stateHasKey
  cases hf : s.find? (fun kv' => kv'.1 == kv.1) with
  | some x => rfl
  | none =>
    have := List.find?_eq_none.mp hf kv h
    simp at this

theorem removePhase_get_expected (E C : DiffState) (hkC : ∀ kv ∈ C, keySplits kv.1)
    {kv : String × List String} (hkv : kv ∈ E) :
    jsMapGet ((calcToDelete E C).foldl removePlatform C) kv.1 = jsMapGet C kv.1 := by
  rw [foldl_removePlatform_lookup]
  have hDkey : ∀ it ∈ calcToDelete E C, (kv.1 == joinKey it.id it.version) = false := by
    intro it hit
    cases hb : (kv.1 == joinKey it.id it.version) with
    | false => rfl
    | true =>
      obtain ⟨kvC, hkvC, hid, hver, _, _, hsk⟩ := (mem_calcToDelete_iff E C it).mp hit
      have hjj : joinKey it.id it.version = kvC.1 := by
        rw [hid, hver, (hkC kvC hkvC).1]
      have hk1 : kv.1 = kvC.1 := by rw [eq_of_beq hb, hjj]
      have hhas : stateHasKey E kvC.1 = true := by
        rw [← hk1]; exact stateHasKey_of_mem hkv
      rw [hhas] at hsk
      exact absurd hsk (by simp)
  cases hg : jsMapGet C kv.1 with
  | none => rfl
  | some v =>
    rw [Option.map_some']
    congr 1
    apply List.filter_eq_self.mpr
    intro p _
    have hanyf : (calcToDelete E C).any
        (fun it => (kv.1 == joinKey it.id it.version) && (p == it.platform)) = false := by
      cases h : (calcToDelete E C).any
          (fun it => (kv.1 == joinKey it.id it.version) && (p == it.platform)) with
      | false => rfl
      | true =>
        obtain ⟨it, hit, hp2⟩ := List.any_eq_true.mp h
        rw [hDkey it hit] at hp2
        simp at hp2
    rw [hanyf]
    rfl

theorem applyPlan_get_covers (E C : DiffState) (hC : (C.map (·.1)).Nodup)
    (hkE : ∀ kv ∈ E, keySplits kv.1) (hkC : ∀ kv ∈ C, keySplits kv.1)
    {kv : String × List String} (hkv : kv ∈ E) {p : String} (hp : p ∈ kv.2) :
    p ∈ (jsMapGet ((calcToAdd E C).foldl addPlatform
        (dropEmptyKeys ((calcToDelete E C).foldl removePlatform C))) kv.1).getD [] := by
  rw [foldl_addPlatform_lookup]
  by_cases hcur : p ∈ (jsMapGet C kv.1).getD []
  · cases hg : jsMapGet C kv.1 with
    | none => rw [hg] at hcur; simp at hcur
    | some l =>
      rw [hg] at hcur
      simp only [Option.getD_some] at hcur
      have hC1 : jsMapGet ((calcToDelete E C).foldl removePlatform C) kv.1 = some l := by
        rw [removePhase_get_expected E C hkC hkv, hg]
      have hC1N : ((((calcToDelete E C).foldl removePlatform C)).map (·.1)).Nodup := by
        rw [keys_foldl_removePlatform]; exact hC
      have hC2 : jsMapGet (dropEmptyKeys ((calcToDelete E C).foldl removePlatform C)) kv.1
          = some l := by
        rw [dropEmptyKeys_lookup _ hC1N, hC1]
        cases l with
        | nil => exact absurd hcur (by simp)
        | cons a as => rfl
      rw [hC2]
      exact List.mem_append_left _ hcur
  · have hA : (⟨keyId kv.1, keyVersion kv.1, p⟩ : Item) ∈ calcToAdd E C :=
      (mem_calcToAdd_iff E C _).mpr ⟨kv, hkv, rfl, rfl, hp, hcur⟩
    have hjoin : joinKey (keyId kv.1) (keyVersion kv.1) = kv.1 := (hkE kv hkv).1
    have hmemA : p ∈ ((calcToAdd E C).filter
        (fun it => joinKey it.id it.version == kv.1)).map (·.platform) := by
      rw [List.mem_map]
      refine ⟨_, List.mem_filter.mpr ⟨hA, ?_⟩, rfl⟩
      simp [hjoin]
    cases hg2 : jsMapGet (dropEmptyKeys ((calcToDelete E C).foldl removePlatform C)) kv.1 with
    | some l => exact List.mem_append_right _ hmemA
    | none =>
      cases hAm : ((calcToAdd E C).filter
          (fun it => joinKey it.id it.version == kv.1)).map (·.platform) with
      | nil => rw [hAm] at hmemA; simp at hmemA
      | cons a as => rw [hAm] at hmemA; exact hmemA

theorem calcToAdd_nil_of_covered (E S : DiffState)
    (hcov : ∀ kv ∈ E, ∀ p ∈ kv.2, p ∈ (jsMapGet S kv.1).getD []) :
    calcToAdd E S = [] := by
  simp only [calcToAdd]
  apply List.flatMap_eq_nil_iff.mpr
  intro kv hkv
  have hfil : kv.2.filter
      (fun p => !((lookupState S kv.1).getD []).contains p) = [] := by
    apply List.filter_eq_nil_iff.mpr
    intro p hp
    have hmem := hcov kv hkv p hp
    simp only [lookupState]
    rw [contains_true_iff.mpr hmem]
    simp
  rw [hfil, List.map_nil]

theorem calcToDelete_nil_of_cond (E S : DiffState)
    (h : ∀ kv ∈ S,
      (E.any (fun ekv => keyId ekv.1 == keyId kv.1) && !(stateHasKey E kv.1)) = false) :
    calcToDelete E S = [] := by
  simp only [calcToDelete]
  apply List.flatMap_eq_nil_iff.mpr
  intro kv hkv
  rw [if_neg]
  rw [h kv hkv]
  simp

theorem calcToAdd_applyPlan_nil (E C : DiffState) (hC : (C.map (·.1)).Nodup)
    (hkE : ∀ kv ∈ E, keySplits kv.1) (hkC : ∀ kv ∈ C, keySplits kv.1) :
    calcToAdd E ((calcToAdd E C).foldl addPlatform
      (dropEmptyKeys ((calcToDelete E C).foldl removePlatform C))) = [] := by
  apply calcToAdd_nil_of_covered
  intro kv hkv p hp
  exact applyPlan_get_covers E C hC hkE hkC hkv hp

theorem calcToDelete_applyPlan_nil (E C : DiffState) (hC : (C.map (·.1)).Nodup)
    (hkE : ∀ kv ∈ E, keySplits kv.1) (hkC : ∀ kv ∈ C, keySplits kv.1) :
    calcToDelete E ((calcToAdd E C).foldl addPlatform
      (dropEmptyKeys ((calcToDelete E C).foldl removePlatform C))) = [] := by
  apply calcToDelete_nil_of_cond
  intro kv' hkv'
  rcases mem_foldl_addPlatform _ _ kv' hkv' with hkeys | ⟨ait, hait, hjoin⟩
  · rw [List.mem_map] at hkeys
    obtain ⟨kv₂, hkv₂, hk₂⟩ := hkeys
    have hkv₂C1 : kv₂ ∈ (calcToDelete E C).foldl removePlatform C := by
      have hmem2 := hkv₂
      unfold dropEmptyKeys at hmem2
      exact (List.mem_filter.mp hmem2).1
    have hkeyC1 : kv₂.1 ∈ (((calcToDelete E C).foldl removePlatform C)).map (·.1) :=
      List.mem_map_of_mem (·.1) hkv₂C1
    rw [keys_foldl_removePlatform, List.mem_map] at hkeyC1
    obtain ⟨kvC, hkvC, hkCk⟩ := hkeyC1
    by_cases hany : (E.any (fun ekv => keyId ekv.1 == keyId kv'.1)) = true
    · by_cases hsk : stateHasKey E kv'.1 = true
      · simp [hsk]
      · exfalso
        have hskf : stateHasKey E kv'.1 = false := by
          cases h : stateHasKey E kv'.1 with
          | false => rfl
          | true => exact absurd h hsk
        have hkCk' : kvC.1 = kv'.1 := by rw [hkCk, hk₂]
        have hD : ∀ q ∈ kvC.2,
            (⟨keyId kvC.1, keyVersion kvC.1, q⟩ : Item) ∈ calcToDelete E C := by
          intro q hq
          apply (mem_calcToDelete_iff E C _).mpr
          refine ⟨kvC, hkvC, rfl, rfl, hq, ?_, ?_⟩
          · rw [hkCk']; exact hany
          · rw [hkCk']; exact hskf
        have hgC : jsMapGet C kv'.1 = some kvC.2 := by
          rw [← hkCk']; exact jsMapGet_of_mem_nodup hC hkvC
        have hjoinC : joinKey (keyId kvC.1) (keyVersion kvC.1) = kvC.1 := (hkC kvC hkvC).1
        have hgC1 : jsMapGet ((calcToDelete E C).foldl removePlatform C) kv'.1
            = some [] := by
          rw [foldl_removePlatform_lookup, hgC, Option.map_some']
          congr 1
          apply List.filter_eq_nil_iff.mpr
          intro q hq
          have hdit := hD q hq
          have hanyT : (calcToDelete E C).any
              (fun it => (kv'.1 == joinKey it.id it.version) && (q == it.platform))
              = true := by
            apply List.any_eq_true.mpr
            refine ⟨_, hdit, ?_⟩
            rw [show ((⟨keyId kvC.1, keyVersion kvC.1, q⟩ : Item).id) = keyId kvC.1 from rfl]
            rw [show ((⟨keyId kvC.1, keyVersion kvC.1, q⟩ : Item).version)
              = keyVersion kvC.1 from rfl]
            rw [hjoinC, hkCk']
            simp
          simp [hanyT]
        have hC1N : ((((calcToDelete E C).foldl removePlatform C)).map (·.1)).Nodup := by
          rw [keys_foldl_removePlatform]; exact hC
        have hgC2 : jsMapGet (dropEmptyKeys ((calcToDelete E C).foldl removePlatform C))
            kv'.1 = none := by
          rw [dropEmptyKeys_lookup _ hC1N, hgC1]
        exact (jsMapGet_eq_none_iff.mp hgC2 kv₂ hkv₂) hk₂
    · have hanyf : (E.any (fun ekv => keyId ekv.1 == keyId kv'.1)) = false := by
        cases h : (E.any (fun ekv => keyId ekv.1 == keyId kv'.1)) with
        | false => rfl
        | true => exact absurd h hany
      simp [hanyf]
  · obtain ⟨kvE, hkvE, hid, hver, _, _⟩ := (mem_calcToAdd_iff E C ait).mp hait
    have hkeq : kv'.1 = kvE.1 := by
      rw [← hjoin, hid, hver]; exact (hkE kvE hkvE).1
    have hsk : stateHasKey E kv'.1 = true := by
      rw [hkeq]; exact stateHasKey_of_mem hkvE
    simp [hsk]

/-- C5: applying the full plan calculateDiff(expected, current) to the
current state — every toDelete platform removed with emptied keys
dropped, then every toAdd platform inserted under its id@version key —
makes a second calculateDiff against the same expected state return an
empty toAdd and an empty toDelete: the reconciler is idempotent, for
states whose keys are duplicate-free id@version strings with @-free
components. -/
theorem C5_reconcile_idempotent (E C : DiffState)
    (_hE : (E.map (·.1)).Nodup) (hC : (C.map (·.1)).Nodup)
    (hkE : ∀ kv ∈ E, keySplits kv.1) (hkC : ∀ kv ∈ C, keySplits kv.1) :
    calculateDiff E (applyPlan C (calculateDiff E C)) = ([], []) := by
  have h1 := calcToAdd_applyPlan_nil E C hC hkE hkC
  have h2 := calcToDelete_applyPlan_nil E C hC hkE hkC
  show (calcToAdd E ((calcToAdd E C).foldl addPlatform
      (dropEmptyKeys ((calcToDelete E C).foldl removePlatform C))),
    calcToDelete E ((calcToAdd E C).foldl addPlatform
      (dropEmptyKeys ((calcToDelete E C).foldl removePlatform C)))) = ([], [])
  rw [h1, h2]

/-- C5 witness: the spec's diff example (x pinned at 2.0.0, current
holding stale x@1.0.0 and unmanaged y@1.0.0) reconciles to a fixed
point after one application of the plan. -/
theorem C5_reconcile_idempotent_witness :
    calculateDiff diffDemoExpected
      (applyPlan diffDemoCurrent (calculateDiff diffDemoExpected diffDemoCurrent))
      = ([], []) :=
  C5_reconcile_idempotent diffDemoExpected diffDemoCurrent
    (by decide) (by decide) (by decide) (by decide)

end OpenBlockRegistry
